/-
Verification of the HubSpot Beta Tracker pipeline (src/index.js).

This file gives a shallow embedding of the pure logic of the tracker:
the status/category classifier (`detectStatus`, `detectHubs`), the
identity-key derivation (`slugify`), the title filter with its regex
pattern sets (`isNoise`, `isRollupPost`, `isInformationalPost`,
`isValidTitle`), the per-scan deduplicator (`dedupe`) and the stateful
merge engine (`mergeResults`), together with theorems about them.

Modelling conventions:
- JS strings are Lean `String`s; `String.length` counts characters where
  JS counts UTF-16 units (identical on the ASCII data handled here).
- `toLowerCase` is modelled by mapping `Char.toLower` (ASCII-exact).
- JS objects with optional fields (`existing.sources`, `existing.hubs`
  may be absent on legacy store entries) are modelled with `Option`.
- JS `Map` and the `state.betas` object are modelled as insertion-ordered
  association lists with `lookupKey`/`setKey`.
-/
import Mathlib

namespace BetaTracker

/-- JS `String.prototype.toLowerCase`, restricted to its ASCII behaviour
(all keyword tables in the source are ASCII). -/
def jsToLower (s : String) : String := String.mk (s.toList.map Char.toLower)

/-- Substring search on character lists: `containsSub needle hay` is true
iff `needle` occurs contiguously in `hay`.  Models JS `hay.includes(needle)`. -/
def containsSub (needle : List Char) : List Char → Bool
  | [] => needle.isEmpty
  | c :: t => needle.isPrefixOf (c :: t) || containsSub needle t

/-- JS `s.includes(sub)`. -/
def includesStr (s sub : String) : Bool := containsSub sub.toList s.toList

/-- Lookup in an insertion-ordered association list (models reading a key
of a JS object / `Map.get`). -/
def lookupKey {β : Type} (k : String) : List (String × β) → Option β
  | [] => none
  | p :: rest => if p.1 = k then some p.2 else lookupKey k rest

/-- Write a key in an insertion-ordered association list: replaces the
value in place when the key is present, appends otherwise (models JS
object assignment / `Map.set`). -/
def setKey {β : Type} (k : String) (v : β) : List (String × β) → List (String × β)
  | [] => [(k, v)]
  | p :: rest => if p.1 = k then (k, v) :: rest else p :: setKey k v rest

-- ── Classifier (src/index.js lines 49–117) ─────────────────────────────

/-- The `STATUS_KEYWORDS` table from src/index.js (lines 49–59). -/
def STATUS_KEYWORDS : List (String × List String) :=
  [ ("public beta", ["public beta"]),
    ("private beta", ["private beta"]),
    ("developer preview", ["developer preview"]),
    ("early access", ["early access"]),
    ("now live", ["now live", "general availability", "ga release", "now available",
                  "is live", "goes live", "gone live", "launched"]),
    ("live", ["live", "available now", "rolling out", "released"]),
    ("sunset", ["sunset", "deprecat", "end of life", "eol"]),
    ("breaking change", ["breaking change"]),
    ("update", ["update", "improvement", "enhanced", "new feature", "added",
                "improved", "redesigned", "upgraded"]) ]

/-- The explicit priority order of `detectStatus` (src/index.js line 100). -/
def priorityOrder : List String :=
  ["public beta", "private beta", "developer preview", "early access",
   "now live", "sunset", "breaking change", "live", "update"]

/-- One step of the loop body of `detectStatus`: does any keyword of
`status` occur in the (already lowercased) text? -/
def statusMatches (lower : String) (status : String) : Bool :=
  match lookupKey status STATUS_KEYWORDS with
  | some kws => kws.any (fun kw => includesStr lower kw)
  | none => false

/-- Function `detectStatus` (src/index.js lines 97–106): first status in
`priorityOrder` with a matching keyword wins; fallback is `"update"`. -/
def detectStatus (text : String) : String :=
  let lower := jsToLower text
  match priorityOrder.find? (fun status => statusMatches lower status) with
  | some status => status
  | none => "update"

/-- The `HUB_KEYWORDS` table from src/index.js (lines 62–71). -/
def HUB_KEYWORDS : List (String × List String) :=
  [ ("Marketing Hub", ["marketing", "email", "forms", "landing pages", "campaigns",
      "seo", "social", "ads", "blog", "ctas", "lead scoring", "lists", "nurture", "a/b test"]),
    ("Sales Hub", ["deals", "pipeline", "sequences", "quotes", "forecasting", "playbooks",
      "sales", "prospecting", "meetings", "calling", "tasks"]),
    ("Service Hub", ["tickets", "conversations", "knowledge base", "customer portal",
      "feedback", "service", "help desk", "sla"]),
    ("CMS Hub", ["cms", "pages", "themes", "templates", "drag-and-drop", "hubdb",
      "modules", "website", "blog"]),
    ("Operations Hub", ["workflows", "data sync", "data quality", "datasets",
      "custom code", "operations", "programmable automation"]),
    ("Commerce Hub", ["payments", "quotes", "invoices", "subscriptions", "commerce",
      "orders", "carts", "checkout"]),
    ("Developer Platform", ["api", "sdk", "cli", "oauth", "apps", "extensions",
      "sandbox", "marketplace", "developer", "webhook", "serverless", "hubl"]),
    ("Breeze AI", ["breeze", "ai", "copilot", "assistant", "agent", "intelligence"]) ]

/-- Function `detectHubs` (src/index.js lines 108–117): every hub whose keyword set
matches the lowercased text is included; `["Platform"]` when none match. -/
def detectHubs (text : String) : List String :=
  let lower := jsToLower text
  let hubs := HUB_KEYWORDS.foldl
    (fun acc p => if p.2.any (fun kw => includesStr lower kw) then acc ++ [p.1] else acc) []
  if hubs.isEmpty then ["Platform"] else hubs

-- ── slugify (src/index.js lines 119–124) ───────────────────────────────

/-- Characters kept verbatim by `slugify`: the class `[a-z0-9]`. -/
def slugChar (c : Char) : Bool :=
  (decide (Char.ofNat 97 ≤ c) && decide (c ≤ Char.ofNat 122)) ||
  (decide (Char.ofNat 48 ≤ c) && decide (c ≤ Char.ofNat 57))

/-- Body of `.replace(/[^a-z0-9]+/g, '-')`: each maximal run of
non-`[a-z0-9]` characters becomes a single dash.  The boolean flag records
whether we are currently inside such a run. -/
def collapseGo : Bool → List Char → List Char
  | _, [] => []
  | inRun, c :: rest =>
    if slugChar c then c :: collapseGo false rest
    else if inRun then collapseGo true rest
    else Char.ofNat 45 :: collapseGo true rest

/-- The `.replace` collapse of non-alphanumeric runs, on a character list. -/
def collapseRuns (l : List Char) : List Char := collapseGo false l

/-- The boundary-dash strip `.replace` step: removes one leading and one trailing dash
(after `collapseRuns`, dashes never repeat, so this strips them all). -/
def stripDashes (l : List Char) : List Char :=
  let l1 := match l with
    | c :: t => if c = Char.ofNat 45 then t else c :: t
    | [] => []
  match l1.reverse with
  | c :: t => if c = Char.ofNat 45 then t.reverse else l1
  | [] => l1

/-- The normalised title before truncation: lowercase, collapse
non-alphanumeric runs to dashes, strip boundary dashes. -/
def normalizeTitle (title : String) : List Char :=
  stripDashes (collapseRuns (jsToLower title).toList)

/-- Function `slugify` (src/index.js lines 119–124): normalised title truncated by
`.substring(0, 80)`. -/
def slugify (title : String) : String := String.mk ((normalizeTitle title).take 80)

-- ── Regular expressions (the pattern sets of the title filter) ─────────

/-- Minimal regular-expression syntax, enough for the pattern sets of
src/index.js.  Character classes are boolean predicates. -/
inductive RE where
  | emp : RE
  | eps : RE
  | pred : (Char → Bool) → RE
  | cat : RE → RE → RE
  | alt : RE → RE → RE
  | star : RE → RE

/-- Does the regular expression accept the empty string? -/
def RE.nullable : RE → Bool
  | .emp => false
  | .eps => true
  | .pred _ => false
  | .cat a b => a.nullable && b.nullable
  | .alt a b => a.nullable || b.nullable
  | .star _ => true

/-- Brzozowski derivative. -/
def RE.deriv : RE → Char → RE
  | .emp, _ => .emp
  | .eps, _ => .emp
  | .pred f, c => if f c then .eps else .emp
  | .cat a b, c =>
    if a.nullable then .alt (.cat (a.deriv c) b) (b.deriv c) else .cat (a.deriv c) b
  | .alt a b, c => .alt (a.deriv c) (b.deriv c)
  | .star a, c => .cat (a.deriv c) (.star a)

/-- Whole-string matching by iterated derivatives. -/
def RE.rmatch (r : RE) (s : String) : Bool := (s.toList.foldl RE.deriv r).nullable

/-- JS `\s` (whitespace class, also used by `String.prototype.trim`). -/
def jsSpaceChar (c : Char) : Bool :=
  let n := c.toNat
  (9 ≤ n && n ≤ 13) || n == 32 || n == 160 || n == 5760 ||
  (8192 ≤ n && n ≤ 8202) || n == 8232 || n == 8233 || n == 8239 ||
  n == 8287 || n == 12288 || n == 65279

/-- JS `String.prototype.trim`. -/
def jsTrim (s : String) : String :=
  String.mk (((s.toList.dropWhile jsSpaceChar).reverse.dropWhile jsSpaceChar).reverse)

/-- A single pattern character, compared case-insensitively (all the
source patterns carry the `/i` flag or contain no letters). -/
def chrCI (c : Char) : RE := RE.pred (fun x => x.toLower == c)

/-- A case-insensitive literal (patterns are written in lowercase). -/
def lit (s : String) : RE := s.toList.foldr (fun c r => RE.cat (chrCI c) r) RE.eps

/-- JS `\w` = `[A-Za-z0-9_]`. -/
def wordChar : RE := RE.pred (fun c => c.isAlphanum || c == Char.ofNat 95)

/-- JS `\d`. -/
def digit : RE := RE.pred Char.isDigit

/-- JS `\s` as a regex atom. -/
def spaceRE : RE := RE.pred jsSpaceChar

/-- JS `.` (any character except a line terminator). -/
def dotRE : RE := RE.pred (fun c =>
  !(c.toNat == 10 || c.toNat == 13 || c.toNat == 8232 || c.toNat == 8233))

/-- Any character at all (used to pad unanchored patterns). -/
def anyChar : RE := RE.pred (fun _ => true)

/-- JS `+`. -/
def plus (r : RE) : RE := RE.cat r (RE.star r)

/-- JS `?`. -/
def opt (r : RE) : RE := RE.alt RE.eps r

/-- An apostrophe (the `'` in `what'?s`). -/
def apos : RE := RE.pred (fun c => c.toNat == 39)

/-- JS `\d{4}`. -/
def digit4 : RE := RE.cat digit (RE.cat digit (RE.cat digit digit))

/-- JS `\s+`. -/
def sp1 : RE := plus spaceRE

/-- A pattern anchored with `^` only: pad the right end. -/
def anchoredStart (core : RE) : RE := RE.cat core (RE.star anyChar)

/-- A pattern with neither anchor: pad both ends.  JS `test` searches for
a match at any position. -/
def unanchored (core : RE) : RE :=
  RE.cat (RE.star anyChar) (RE.cat core (RE.star anyChar))

/-- The `NOISE_PATTERNS` list (src/index.js lines 127–150), compiled one by one.
A pattern with both `^` and `$` is the bare core. -/
def NOISE_PATTERNS : List RE :=
  [ anchoredStart (lit "questions or comments"),
    anchoredStart (RE.cat (lit "what") (RE.cat (opt apos) (lit "s changing"))),
    anchoredStart (lit "when is it happening"),
    anchoredStart (RE.cat (lit "for ") (plus wordChar)),
    anchoredStart (lit "for any industry"),
    anchoredStart (lit "ready to transform"),
    anchoredStart (RE.cat (lit "app theme ") (RE.cat (opt (chrCI (Char.ofNat 35))) digit)),
    anchoredStart (lit "key considerations"),
    anchoredStart (RE.cat (lit "starting ")
      (RE.cat (plus wordChar) (RE.cat (lit " ") digit))),
    anchoredStart (lit "all hubspot release notes"),
    anchoredStart (lit "over the last month"),
    anchoredStart (RE.cat (lit "this month") (RE.cat (opt apos) (lit "s updates focus"))),
    RE.cat (lit "node") (RE.cat (opt (chrCI (Char.ofNat 46))) (lit "js requirements")),
    lit "deprecated commands removed",
    lit "additional breaking changes",
    lit "bug fixes and improvements",
    lit "ci/cd considerations",
    anchoredStart (lit "sunset notice for"),
    anchoredStart (RE.cat (lit "what") (RE.cat (opt apos) (lit "s new"))),
    anchoredStart (RE.cat (lit "what") (RE.cat (opt apos) (lit "s changing"))),
    anchoredStart (RE.cat (plus digit) (RE.cat (chrCI (Char.ofNat 46)) spaceRE)),
    anchoredStart (RE.cat (lit "the ") (RE.cat (plus wordChar)
      (RE.cat (lit " ") (RE.cat digit4 (lit " industry edit"))))) ]

/-- The `ROLLUP_PATTERNS` list (src/index.js lines 155–162). -/
def ROLLUP_PATTERNS : List RE :=
  [ unanchored (RE.cat (lit "developer") (RE.cat sp1
      (RE.cat (RE.alt (lit "updates") (lit "rollup")) (RE.cat sp1
      (RE.cat (lit "for") (RE.cat sp1 (RE.cat (plus wordChar) (RE.cat sp1 digit4)))))))),
    unanchored (RE.cat (plus wordChar) (RE.cat sp1 (RE.cat digit4
      (RE.cat sp1 (RE.cat (lit "developer") (RE.cat sp1 (lit "rollup"))))))),
    anchoredStart (RE.cat (lit "top product update") (RE.cat (opt (chrCI (Char.ofNat 115)))
      (RE.cat sp1 (lit "for")))),
    anchoredStart (RE.cat (lit "product update") (RE.cat (opt (chrCI (Char.ofNat 115)))
      (RE.cat sp1 (RE.cat (lit "for") (RE.cat sp1 (RE.cat (plus wordChar) (RE.cat sp1 digit4))))))),
    RE.cat (plus wordChar) (RE.cat sp1 (RE.cat (lit "product")
      (RE.cat sp1 (RE.cat (lit "update") (opt (chrCI (Char.ofNat 115))))))),
    RE.cat (plus wordChar) (RE.cat sp1 (RE.cat digit4 (RE.cat sp1
      (RE.cat (lit "product") (RE.cat sp1 (RE.cat (lit "update") (opt (chrCI (Char.ofNat 115))))))))) ]

/-- The `INFORMATIONAL_PATTERNS` list (src/index.js lines 166–173). -/
def INFORMATIONAL_PATTERNS : List RE :=
  [ anchoredStart (lit "top delivered ideas"),
    anchoredStart (lit "new hubspot app updates"),
    anchoredStart (RE.cat digit (RE.cat (plus (RE.pred (fun c => c.isDigit || c.toNat == 44)))
      (RE.cat (opt (chrCI (Char.ofNat 43))) (RE.cat sp1 (lit "apps"))))),
    anchoredStart (RE.cat (lit "revealed") (RE.cat (opt (chrCI (Char.ofNat 58)))
      (RE.cat sp1 (lit "emerging app themes")))),
    unanchored (lit "industry edit"),
    anchoredStart (lit "app marketplace") ]

/-- Function `isRollupPost` (src/index.js lines 175–177). -/
def isRollupPost (title : String) : Bool :=
  ROLLUP_PATTERNS.any (fun pat => pat.rmatch (jsTrim title))

/-- Function `isInformationalPost` (src/index.js lines 179–181). -/
def isInformationalPost (title : String) : Bool :=
  INFORMATIONAL_PATTERNS.any (fun pat => pat.rmatch (jsTrim title))

/-- Function `isNoise` (src/index.js lines 183–185). -/
def isNoise (title : String) : Bool :=
  NOISE_PATTERNS.any (fun pat => pat.rmatch (jsTrim title))

/-- Function `isValidTitle` (src/index.js lines 188–194): length bounds, not noise,
and at least one ASCII uppercase letter. -/
def isValidTitle (title : String) : Bool :=
  if title = "" ∨ title.length < 15 ∨ 200 < title.length then false
  else if isNoise title then false
  else if !(title.toList.any fun c =>
      decide (Char.ofNat 65 ≤ c) && decide (c ≤ Char.ofNat 90)) then false
  else true

/-- The per-item title gate of `parseDevChangelog` (src/index.js lines
246–258): an item is kept only when its title survives `isValidTitle`,
`isRollupPost` and `isInformationalPost`.  The description argument is
carried to express that the decision never reads it. -/
def devChangelogAccepts (title _description : String) : Bool :=
  isValidTitle title && !isRollupPost title && !isInformationalPost title

/-- The standalone-entry gate of `parseReleasebot` (src/index.js lines
559–581): a post title becomes its own Candidate Record only when no
numbered sub-features were extracted from it and the title survives the
filter; unexpanded rollup and informational titles are skipped. -/
def releasebotEmitsStandalone (extractedFeatures : Bool) (postTitle : String) : Bool :=
  !extractedFeatures && isValidTitle postTitle &&
  !isRollupPost postTitle && !isInformationalPost postTitle

-- ── Data model (src/index.js state shape) ──────────────────────────────

/-- A Candidate Record as produced by the source parsers.  The inert
payload fields (`sourceUrl`, `pubDate`, `author`, `availability`) are
carried verbatim by the pipeline and never inspected by the dedup/merge
logic, so they are omitted here. -/
structure Candidate where
  id : String
  title : String
  description : String
  status : String
  hubs : List String
  source : String
deriving DecidableEq, Repr

/-- One entry of a Tracked Item's `statusHistory`. -/
structure HistEntry where
  status : String
  date : String
  source : String
  previousStatus : Option String
deriving DecidableEq, Repr

/-- A Tracked Item as stored in `state.betas`.  `hubs` and `sources` are
optional because legacy store entries may lack them (the code guards both
with `!existing.hubs` / `!existing.sources`); items created by
`mergeResults` get `hubs` but no `sources` field. -/
structure TrackedItem where
  id : String
  title : String
  description : String
  status : String
  hubs : Option (List String)
  source : String
  firstSeen : String
  lastSeen : String
  statusHistory : List HistEntry
  sources : Option (List String)
deriving DecidableEq, Repr

/-- The set of origin sources recorded on an item: the `sources` array
when present, else the singleton of the creating `source` (exactly the
reading the code applies with `if (!existing.sources) existing.sources =
[existing.source]`). -/
def sourceSet (e : TrackedItem) : List String := e.sources.getD [e.source]

/-- The Change Set returned by `mergeResults`.  A status change carries
the item together with its `previousStatus`. -/
structure Changes where
  newItems : List Candidate
  statusChanged : List (Candidate × String)
  updated : List Candidate
deriving DecidableEq, Repr

/-- The persisted Item Store (`state.json`). -/
structure ScanState where
  betas : List (String × TrackedItem)
  lastScan : Option String
  scanCount : Nat
deriving DecidableEq, Repr

/-- The empty change set. -/
def emptyChanges : Changes := ⟨[], [], []⟩

-- ── Merge Engine (src/index.js lines 593–666) ──────────────────────────

/-- The body of `if (!existing.hubs.includes(hub)) existing.hubs.push(hub)`. -/
def insertHub (acc : List String) (hub : String) : List String :=
  if hub ∈ acc then acc else acc ++ [hub]

/-- Hub merging for an existing item with a `hubs` field (src/index.js
lines 622–633): union in the candidate's hubs, then drop the
`"Platform"` placeholder when more than one hub remains. -/
def mergeHubList (hs ihubs : List String) : List String :=
  let merged := ihubs.foldl insertHub hs
  if 1 < merged.length ∧ "Platform" ∈ merged then
    merged.filter (fun h => h ≠ "Platform")
  else merged

/-- Full hub update (src/index.js lines 619–633).  A legacy item without
a `hubs` field just receives the candidate's hubs (`item.hubs ||
['Platform']`; candidates always carry a — possibly empty — array, and in
JS an empty array is truthy, so the fallback never fires here). -/
def mergeHubs : Option (List String) → List String → List String
  | none, ihubs => ihubs
  | some hs, ihubs => mergeHubList hs ihubs

/-- The Tracked Item created for a brand-new identity (src/index.js lines
606–613): the candidate's fields, `firstSeen`/`lastSeen` stamped `now`,
a one-entry status history, and no `sources` field. -/
def newTracked (now : String) (c : Candidate) : TrackedItem :=
  { id := c.id, title := c.title, description := c.description,
    status := c.status, hubs := some c.hubs, source := c.source,
    firstSeen := now, lastSeen := now,
    statusHistory := [{ status := c.status, date := now, source := c.source,
                        previousStatus := none }],
    sources := none }

/-- First mutations of `mergeResults` on an existing item (src/index.js
lines 616–633): update `lastSeen` and merge the hubs. -/
def touchTracked (now : String) (e : TrackedItem) (c : Candidate) : TrackedItem :=
  { e with lastSeen := now, hubs := some (mergeHubs e.hubs c.hubs) }

/-- The status transition of `mergeResults` (src/index.js lines 636–644):
replace the status and append a history entry recording the old status,
unless the candidate's status equals the stored one or is the generic
`"update"` fallback. -/
def statusTracked (now : String) (e1 : TrackedItem) (c : Candidate) : TrackedItem :=
  if e1.status ≠ c.status ∧ c.status ≠ "update" then
    { e1 with status := c.status,
              statusHistory := e1.statusHistory ++
                [{ status := c.status, date := now, source := c.source,
                   previousStatus := some e1.status }] }
  else e1

/-- The description upgrade of `mergeResults` (src/index.js lines
651–655): only a strictly longer description replaces the stored one (the
JS guard also requires the candidate description to be truthy, i.e.
nonempty). -/
def descTracked (e2 : TrackedItem) (c : Candidate) : TrackedItem :=
  if c.description ≠ "" ∧ e2.description.length < c.description.length then
    { e2 with description := c.description }
  else e2

/-- The source-set union of `mergeResults` (src/index.js lines 657–661):
materialise `sources` (defaulting to the creating source) and append the
candidate's source if missing. -/
def sourcesTracked (e3 : TrackedItem) (c : Candidate) : TrackedItem :=
  { e3 with sources := some (if c.source ∈ e3.sources.getD [e3.source]
      then e3.sources.getD [e3.source]
      else e3.sources.getD [e3.source] ++ [c.source]) }

/-- The in-place mutation of an existing Tracked Item by one candidate
(src/index.js lines 616–661), in source order: `lastSeen` and hub merge,
status transition, description upgrade, source-set union. -/
def mergedTracked (now : String) (e : TrackedItem) (c : Candidate) : TrackedItem :=
  sourcesTracked (descTracked (statusTracked now (touchTracked now e c) c) c) c

/-- The pushes into the Change Set performed while merging one candidate
against an existing item (same conditions as `mergedTracked`; both guards
read the stored item's pre-update `status` and `description`). -/
def mergeChanges (e : TrackedItem) (c : Candidate) (ch : Changes) : Changes :=
  let ch1 :=
    if e.status ≠ c.status ∧ c.status ≠ "update" then
      { ch with statusChanged := ch.statusChanged ++ [(c, e.status)] }
    else ch
  if c.description ≠ "" ∧ e.description.length < c.description.length then
    { ch1 with updated := ch1.updated ++ [c] }
  else ch1

/-- One iteration of the `for (const item of newItems)` loop of
`mergeResults` (src/index.js lines 602–663). -/
def mergeStep (now : String) (sc : ScanState × Changes) (c : Candidate) :
    ScanState × Changes :=
  match lookupKey c.id sc.1.betas with
  | none =>
    ({ sc.1 with betas := setKey c.id (newTracked now c) sc.1.betas },
     { sc.2 with newItems := sc.2.newItems ++ [c] })
  | some e =>
    ({ sc.1 with betas := setKey c.id (mergedTracked now e c) sc.1.betas },
     mergeChanges e c sc.2)

/-- Function `mergeResults` (src/index.js lines 593–666): fold the candidates over
the store, returning the mutated store and the Change Set. -/
def mergeResults (now : String) (state : ScanState) (newItems : List Candidate) :
    ScanState × Changes :=
  newItems.foldl (mergeStep now) (state, emptyChanges)

-- ── Deduplicator (src/index.js lines 799–805) ──────────────────────────

/-- One iteration of the dedup loop in `main`: keep the first candidate
for an identity unless a later one has a strictly longer description. -/
def dedupeStep (m : List (String × Candidate)) (item : Candidate) :
    List (String × Candidate) :=
  match lookupKey item.id m with
  | none => setKey item.id item m
  | some existing =>
    if existing.description.length < item.description.length then
      setKey item.id item m
    else m

/-- The dedup `Map` built by `main` (src/index.js lines 799–805), as an
insertion-ordered association list. -/
def dedupe (items : List Candidate) : List (String × Candidate) :=
  items.foldl dedupeStep []

-- ── Derived notions used by the theorems ───────────────────────────────

/-- The entry stored at `c.id` by one merge step. -/
def afterEntry (now : String) (s : ScanState) (c : Candidate) : TrackedItem :=
  match lookupKey c.id s.betas with
  | none => newTracked now c
  | some e => mergedTracked now e c

/-- Candidate well-formedness guaranteed by the pipeline: hub lists come
from `detectHubs`, so they are duplicate-free and never pair the
`"Platform"` placeholder with a real hub. -/
def CandWF (c : Candidate) : Prop :=
  c.hubs.Nodup ∧ ("Platform" ∈ c.hubs → c.hubs = ["Platform"])

/-- Store well-formedness: every stored hub list is duplicate-free. -/
def StoreWF (s : ScanState) : Prop :=
  ∀ k e, lookupKey k s.betas = some e → ∀ h, e.hubs = some h → h.Nodup

/-- A stored entry is stable for a candidate when merging that candidate
cannot change anything observable: the status check, description check,
hub merge and source union are all no-ops.  Every entry is stable for a
candidate right after that candidate has been merged into it. -/
def Stable (e : TrackedItem) (c : Candidate) : Prop :=
  (c.status = "update" ∨ e.status = c.status) ∧
  c.description.length ≤ e.description.length ∧
  (∃ h, e.hubs = some h ∧ mergeHubList h c.hubs = h) ∧
  c.source ∈ sourceSet e

/-- Observable equality of tracked items: status history, description,
status, hub set and source set (the fields the no-op claim is about). -/
def Obs (e1 e2 : TrackedItem) : Prop :=
  e2.statusHistory = e1.statusHistory ∧ e2.description = e1.description ∧
  e2.status = e1.status ∧ e2.hubs = e1.hubs ∧ sourceSet e2 = sourceSet e1

-- ── Association-list lemmas ────────────────────────────────────────────

theorem lookupKey_setKey_self {β : Type} (k : String) (v : β) (m : List (String × β)) :
    lookupKey k (setKey k v m) = some v := by
  induction m with
  | nil => simp [setKey, lookupKey]
  | cons p rest ih =>
    by_cases h : p.1 = k
    · simp [setKey, h, lookupKey]
    · simp [setKey, h, lookupKey, ih]

theorem lookupKey_setKey_ne {β : Type} {k k' : String} (v : β) (m : List (String × β))
    (h : k' ≠ k) : lookupKey k' (setKey k v m) = lookupKey k' m := by
  induction m with
  | nil =>
    have hne : k ≠ k' := fun hh => h hh.symm
    simp [setKey, lookupKey, hne]
  | cons p rest ih =>
    by_cases hp : p.1 = k
    · subst hp
      have hne : p.1 ≠ k' := fun hh => h hh.symm
      simp [setKey, lookupKey, hne]
    · simp only [setKey, if_neg hp, lookupKey]
      by_cases hp' : p.1 = k'
      · simp [hp']
      · simp [hp', ih]

theorem lookupKey_eq_none_iff {β : Type} (k : String) (m : List (String × β)) :
    lookupKey k m = none ↔ k ∉ m.map Prod.fst := by
  induction m with
  | nil => simp [lookupKey]
  | cons p rest ih =>
    by_cases h : p.1 = k
    · simp [lookupKey, h]
    · have hne : k ≠ p.1 := fun hh => h hh.symm
      simp [lookupKey, h, ih, hne]

theorem lookupKey_isSome_iff {β : Type} (k : String) (m : List (String × β)) :
    (lookupKey k m).isSome = true ↔ k ∈ m.map Prod.fst := by
  rw [← Decidable.not_iff_not, ← lookupKey_eq_none_iff]
  cases lookupKey k m <;> simp

theorem map_fst_setKey_mem {β : Type} {k : String} (v : β) {m : List (String × β)}
    (h : k ∈ m.map Prod.fst) : (setKey k v m).map Prod.fst = m.map Prod.fst := by
  induction m with
  | nil => simp at h
  | cons p rest ih =>
    by_cases hp : p.1 = k
    · simp [setKey, hp]
    · rw [List.map_cons, List.mem_cons] at h
      have h' : k ∈ rest.map Prod.fst := by
        rcases h with h1 | h1
        · exact absurd h1.symm hp
        · exact h1
      simp [setKey, hp, ih h']

theorem map_fst_setKey_not_mem {β : Type} {k : String} (v : β) {m : List (String × β)}
    (h : k ∉ m.map Prod.fst) : (setKey k v m).map Prod.fst = m.map Prod.fst ++ [k] := by
  induction m with
  | nil => simp [setKey]
  | cons p rest ih =>
    have hp : p.1 ≠ k := by
      intro hh; exact h (by simp [hh])
    have : k ∉ rest.map Prod.fst := by
      intro hh; exact h (by simp [hh])
    simp [setKey, hp, ih this]

theorem lookupKey_mem {β : Type} {k : String} {m : List (String × β)} {v : β}
    (h : lookupKey k m = some v) : (k, v) ∈ m := by
  induction m with
  | nil => simp [lookupKey] at h
  | cons p rest ih =>
    by_cases hp : p.1 = k
    · simp only [lookupKey, if_pos hp] at h
      cases p with
      | mk a b =>
        simp only at hp
        injection h with h2
        subst hp
        subst h2
        exact List.mem_cons_self _ _
    · simp only [lookupKey, if_neg hp] at h
      exact List.mem_cons_of_mem _ (ih h)

-- ── Substring lemmas ───────────────────────────────────────────────────

theorem containsSub_iff (needle hay : List Char) :
    containsSub needle hay = true ↔ needle <:+: hay := by
  induction hay with
  | nil =>
    simp [containsSub, List.isEmpty_iff]
  | cons c t ih =>
    simp [containsSub, List.infix_cons_iff, ih, List.isPrefixOf_iff_prefix]

theorem includesStr_trans {s : String} {a b : String}
    (hab : containsSub a.toList b.toList = true) (hbs : includesStr s b = true) :
    includesStr s a = true := by
  unfold includesStr at *
  rw [containsSub_iff] at *
  exact hab.trans hbs

-- ── Hub-merge lemmas ───────────────────────────────────────────────────

theorem insertHub_of_mem {a : List String} {x : String} (h : x ∈ a) :
    insertHub a x = a := by simp [insertHub, h]

theorem insertHub_of_not_mem {a : List String} {x : String} (h : x ∉ a) :
    insertHub a x = a ++ [x] := by simp [insertHub, h]

theorem mem_foldl_insertHub (l a : List String) (x : String) :
    x ∈ l.foldl insertHub a ↔ x ∈ a ∨ x ∈ l := by
  induction l generalizing a with
  | nil => simp
  | cons y t ih =>
    simp only [List.foldl_cons]
    rw [ih]
    by_cases hy : y ∈ a
    · rw [insertHub_of_mem hy]
      simp only [List.mem_cons]
      constructor
      · rintro (h | h) <;> tauto
      · rintro (h | rfl | h) <;> tauto
    · rw [insertHub_of_not_mem hy]
      simp only [List.mem_append, List.mem_cons, List.mem_singleton]
      tauto

theorem nodup_foldl_insertHub (l : List String) {a : List String} (ha : a.Nodup) :
    (l.foldl insertHub a).Nodup := by
  induction l generalizing a with
  | nil => simpa
  | cons y t ih =>
    simp only [List.foldl_cons]
    by_cases hy : y ∈ a
    · rw [insertHub_of_mem hy]; exact ih ha
    · rw [insertHub_of_not_mem hy]
      refine ih ?_
      rw [List.nodup_append]
      refine ⟨ha, List.nodup_singleton y, ?_⟩
      intro z hz hzy
      rw [List.mem_singleton] at hzy
      subst hzy
      exact hy hz

theorem foldl_insertHub_absorb (l a : List String) (h : ∀ x ∈ l, x ∈ a) :
    l.foldl insertHub a = a := by
  induction l with
  | nil => rfl
  | cons y t ih =>
    simp only [List.foldl_cons]
    rw [insertHub_of_mem (h y (List.mem_cons_self y t))]
    exact ih (fun x hx => h x (List.mem_cons_of_mem _ hx))

theorem foldl_insertHub_append_one (l : List String) {a : List String} {v : String}
    (hv : v ∉ a) (hvl : v ∈ l) (h : ∀ x ∈ l, x ∈ a ∨ x = v) :
    l.foldl insertHub a = a ++ [v] := by
  induction l generalizing a with
  | nil => cases hvl
  | cons y t ih =>
    simp only [List.foldl_cons]
    rcases h y (List.mem_cons_self y t) with hy | rfl
    · rw [insertHub_of_mem hy]
      have hvt : v ∈ t := by
        rcases List.mem_cons.mp hvl with h1 | h1
        · subst h1
          exact absurd hy hv
        · exact h1
      exact ih hv hvt (fun x hx => h x (List.mem_cons_of_mem _ hx))
    · rw [insertHub_of_not_mem hv]
      exact foldl_insertHub_absorb _ _ (fun x hx => by
        rcases h x (List.mem_cons_of_mem _ hx) with h' | h' <;> simp [h'])

theorem one_lt_length_of_two_mem {α : Type} {l : List α} {a b : α}
    (ha : a ∈ l) (hb : b ∈ l) (hne : a ≠ b) : 1 < l.length := by
  cases l with
  | nil => cases ha
  | cons x t =>
    cases t with
    | nil =>
      simp only [List.mem_singleton] at ha hb
      exact absurd (ha.trans hb.symm) hne
    | cons y u =>
      simp only [List.length_cons]
      omega

theorem exists_mem_ne_of_nodup {α : Type} {l : List α} {v : α}
    (hnd : l.Nodup) (hl : 1 < l.length) : ∃ x ∈ l, x ≠ v := by
  cases l with
  | nil => simp at hl
  | cons a t =>
    cases t with
    | nil => simp at hl
    | cons b u =>
      by_cases hav : a = v
      · refine ⟨b, by simp, fun hbv => ?_⟩
        have : a ∉ b :: u := (List.nodup_cons.mp hnd).1
        exact this (by simp [hav, hbv])
      · exact ⟨a, by simp, hav⟩

theorem mem_mergeHubList_iff {hs c : List String} {x : String} :
    x ∈ mergeHubList hs c ↔
      ((x ∈ hs ∨ x ∈ c) ∧ (1 < (c.foldl insertHub hs).length ∧
        "Platform" ∈ c.foldl insertHub hs → x ≠ "Platform")) := by
  simp only [mergeHubList]
  by_cases hcond : 1 < (c.foldl insertHub hs).length ∧ "Platform" ∈ c.foldl insertHub hs
  · rw [if_pos hcond]
    simp [List.mem_filter, mem_foldl_insertHub, hcond]
  · rw [if_neg hcond, mem_foldl_insertHub]
    constructor
    · intro hx
      exact ⟨hx, fun hc => absurd hc hcond⟩
    · exact fun h => h.1

theorem mem_mergeHubList_of_ne {hs c : List String} {x : String}
    (hx : x ∈ hs ∨ x ∈ c) (hne : x ≠ "Platform") : x ∈ mergeHubList hs c :=
  mem_mergeHubList_iff.mpr ⟨hx, fun _ => hne⟩

theorem mem_of_mem_mergeHubList {hs c : List String} {x : String}
    (h : x ∈ mergeHubList hs c) : x ∈ hs ∨ x ∈ c :=
  (mem_mergeHubList_iff.mp h).1

theorem mergeHubList_superset_except {hs c : List String} {x : String} (h : x ∈ hs) :
    x ∈ mergeHubList hs c ∨ x = "Platform" := by
  by_cases hx : x = "Platform"
  · exact Or.inr hx
  · exact Or.inl (mem_mergeHubList_of_ne (Or.inl h) hx)

theorem platform_not_mem_mergeHubList {hs c : List String}
    (hr : ∃ r, (r ∈ hs ∨ r ∈ c) ∧ r ≠ "Platform")
    (hp : "Platform" ∈ hs ∨ "Platform" ∈ c) :
    "Platform" ∉ mergeHubList hs c := by
  intro hmem
  obtain ⟨r, hrm, hrne⟩ := hr
  have hrm' : r ∈ c.foldl insertHub hs := (mem_foldl_insertHub c hs r).mpr hrm
  have hpm : "Platform" ∈ c.foldl insertHub hs := (mem_foldl_insertHub c hs _).mpr hp
  have hlen : 1 < (c.foldl insertHub hs).length :=
    one_lt_length_of_two_mem hrm' hpm hrne
  exact (mem_mergeHubList_iff.mp hmem).2 ⟨hlen, hpm⟩ rfl

theorem mergeHubList_nodup {hs : List String} (c : List String) (h : hs.Nodup) :
    (mergeHubList hs c).Nodup := by
  simp only [mergeHubList]
  split
  · exact (nodup_foldl_insertHub c h).filter _
  · exact nodup_foldl_insertHub c h

/-- A nonempty well-formed hub list merged into itself is unchanged (the
creation case of the stability argument: candidates produced by
`detectHubs` never pair the placeholder with a real hub). -/
theorem mergeHubList_self {c : List String}
    (hp : "Platform" ∈ c → c = ["Platform"]) : mergeHubList c c = c := by
  simp only [mergeHubList]
  rw [foldl_insertHub_absorb c c (fun x hx => hx)]
  by_cases hcond : 1 < c.length ∧ "Platform" ∈ c
  · have := hp hcond.2
    rw [this] at hcond
    simp at hcond
  · rw [if_neg hcond]

/-- Value of `mergeHubList a c` when the fold absorbs `c` into `a` and the filter
condition fails on `a`. -/
theorem mergeHubList_of_absorb {a c : List String} (hfold : c.foldl insertHub a = a)
    (hcond : ¬(1 < a.length ∧ "Platform" ∈ a)) : mergeHubList a c = a := by
  simp only [mergeHubList]
  rw [hfold, if_neg hcond]

/-- Value of `mergeHubList a c` when the fold re-adds only the placeholder, which
the filter then removes again. -/
theorem mergeHubList_of_append_platform {a c : List String}
    (hfold : c.foldl insertHub a = a ++ ["Platform"])
    (hne : a ≠ []) (hPl : "Platform" ∉ a) : mergeHubList a c = a := by
  simp only [mergeHubList]
  rw [hfold]
  have hcond : 1 < (a ++ ["Platform"]).length ∧ "Platform" ∈ a ++ ["Platform"] := by
    constructor
    · rw [List.length_append, List.length_singleton]
      have : 0 < a.length := List.length_pos.mpr hne
      omega
    · simp
  rw [if_pos hcond, List.filter_append]
  have h1 : a.filter (fun h => h ≠ "Platform") = a := by
    rw [List.filter_eq_self]
    intro x hx
    simp only [ne_eq, decide_not, Bool.not_eq_eq_eq_not, Bool.not_true, decide_eq_false_iff_not]
    intro hxp
    exact hPl (hxp ▸ hx)
  have h2 : (["Platform"] : List String).filter (fun h => h ≠ "Platform") = [] := by simp
  rw [h1, h2, List.append_nil]

/-- Re-merging the same candidate hubs into an already-merged hub list is
the identity: the key stability fact behind merge idempotence. -/
theorem mergeHubList_stable {hs c : List String} (hnd : hs.Nodup) :
    mergeHubList (mergeHubList hs c) c = mergeHubList hs c := by
  have hmem : ∀ x ∈ c, x ∈ c.foldl insertHub hs :=
    fun x hx => (mem_foldl_insertHub c hs x).mpr (Or.inr hx)
  have hm1nd : (c.foldl insertHub hs).Nodup := nodup_foldl_insertHub c hnd
  by_cases hcond : 1 < (c.foldl insertHub hs).length ∧ "Platform" ∈ c.foldl insertHub hs
  · -- the first merge filtered the placeholder out
    have hres : mergeHubList hs c =
        (c.foldl insertHub hs).filter (fun h => h ≠ "Platform") := by
      simp only [mergeHubList]
      rw [if_pos hcond]
    have hPl : "Platform" ∉ mergeHubList hs c := by
      rw [hres]
      simp [List.mem_filter]
    have hkeep : ∀ x ∈ c, x ≠ "Platform" → x ∈ mergeHubList hs c := by
      intro x hx hne
      rw [hres]
      exact List.mem_filter.mpr ⟨hmem x hx, by simp [hne]⟩
    have hne_nil : mergeHubList hs c ≠ [] := by
      obtain ⟨r, hr, hrne⟩ := exists_mem_ne_of_nodup hm1nd hcond.1 (v := "Platform")
      intro hnil
      have hrm : r ∈ mergeHubList hs c := by
        rw [hres]
        exact List.mem_filter.mpr ⟨hr, by simp [hrne]⟩
      rw [hnil] at hrm
      cases hrm
    by_cases hplc : "Platform" ∈ c
    · refine mergeHubList_of_append_platform ?_ hne_nil hPl
      refine foldl_insertHub_append_one c hPl hplc ?_
      intro x hx
      by_cases hxp : x = "Platform"
      · exact Or.inr hxp
      · exact Or.inl (hkeep x hx hxp)
    · refine mergeHubList_of_absorb ?_ ?_
      · refine foldl_insertHub_absorb c _ ?_
        intro x hx
        refine hkeep x hx ?_
        intro hxp
        exact hplc (hxp ▸ hx)
      · intro hcond2
        exact hPl hcond2.2
  · -- the first merge did not filter: it absorbed the candidate hubs
    have hres : mergeHubList hs c = c.foldl insertHub hs := by
      simp only [mergeHubList]
      rw [if_neg hcond]
    refine mergeHubList_of_absorb ?_ ?_
    · refine foldl_insertHub_absorb c _ ?_
      intro x hx
      rw [hres]
      exact hmem x hx
    · rw [hres]
      exact hcond

-- ── Field lemmas for the merge-step parts ──────────────────────────────

theorem statusTracked_description (now : String) (e1 : TrackedItem) (c : Candidate) :
    (statusTracked now e1 c).description = e1.description := by
  unfold statusTracked; split <;> rfl

theorem statusTracked_hubs (now : String) (e1 : TrackedItem) (c : Candidate) :
    (statusTracked now e1 c).hubs = e1.hubs := by
  unfold statusTracked; split <;> rfl

theorem statusTracked_sources (now : String) (e1 : TrackedItem) (c : Candidate) :
    (statusTracked now e1 c).sources = e1.sources := by
  unfold statusTracked; split <;> rfl

theorem statusTracked_source (now : String) (e1 : TrackedItem) (c : Candidate) :
    (statusTracked now e1 c).source = e1.source := by
  unfold statusTracked; split <;> rfl

theorem descTracked_status (e2 : TrackedItem) (c : Candidate) :
    (descTracked e2 c).status = e2.status := by
  unfold descTracked; split <;> rfl

theorem descTracked_statusHistory (e2 : TrackedItem) (c : Candidate) :
    (descTracked e2 c).statusHistory = e2.statusHistory := by
  unfold descTracked; split <;> rfl

theorem descTracked_hubs (e2 : TrackedItem) (c : Candidate) :
    (descTracked e2 c).hubs = e2.hubs := by
  unfold descTracked; split <;> rfl

theorem descTracked_sources (e2 : TrackedItem) (c : Candidate) :
    (descTracked e2 c).sources = e2.sources := by
  unfold descTracked; split <;> rfl

theorem descTracked_source (e2 : TrackedItem) (c : Candidate) :
    (descTracked e2 c).source = e2.source := by
  unfold descTracked; split <;> rfl

theorem descTracked_description (e2 : TrackedItem) (c : Candidate) :
    (descTracked e2 c).description =
      if c.description ≠ "" ∧ e2.description.length < c.description.length
      then c.description else e2.description := by
  unfold descTracked; split <;> simp_all

theorem sourcesTracked_status (e3 : TrackedItem) (c : Candidate) :
    (sourcesTracked e3 c).status = e3.status := rfl

theorem sourcesTracked_statusHistory (e3 : TrackedItem) (c : Candidate) :
    (sourcesTracked e3 c).statusHistory = e3.statusHistory := rfl

theorem sourcesTracked_description (e3 : TrackedItem) (c : Candidate) :
    (sourcesTracked e3 c).description = e3.description := rfl

theorem sourcesTracked_hubs (e3 : TrackedItem) (c : Candidate) :
    (sourcesTracked e3 c).hubs = e3.hubs := rfl

-- ── mergedTracked field computations ───────────────────────────────────

theorem mergedTracked_hubs (now : String) (e : TrackedItem) (c : Candidate) :
    (mergedTracked now e c).hubs = some (mergeHubs e.hubs c.hubs) := by
  unfold mergedTracked
  rw [sourcesTracked_hubs, descTracked_hubs, statusTracked_hubs]
  rfl

theorem mergedTracked_status (now : String) (e : TrackedItem) (c : Candidate) :
    (mergedTracked now e c).status =
      if e.status ≠ c.status ∧ c.status ≠ "update" then c.status else e.status := by
  unfold mergedTracked
  rw [sourcesTracked_status, descTracked_status]
  unfold statusTracked
  have hts : (touchTracked now e c).status = e.status := rfl
  rw [hts]
  by_cases hcond : e.status ≠ c.status ∧ c.status ≠ "update" <;> simp [hcond, hts]

theorem mergedTracked_statusHistory (now : String) (e : TrackedItem) (c : Candidate) :
    (mergedTracked now e c).statusHistory =
      if e.status ≠ c.status ∧ c.status ≠ "update"
      then e.statusHistory ++ [{ status := c.status, date := now, source := c.source,
                                 previousStatus := some e.status }]
      else e.statusHistory := by
  unfold mergedTracked
  rw [sourcesTracked_statusHistory, descTracked_statusHistory]
  unfold statusTracked
  have hts : (touchTracked now e c).status = e.status := rfl
  have hth : (touchTracked now e c).statusHistory = e.statusHistory := rfl
  rw [hts, hth]
  by_cases hcond : e.status ≠ c.status ∧ c.status ≠ "update" <;> simp [hcond, hts, hth]

theorem mergedTracked_description (now : String) (e : TrackedItem) (c : Candidate) :
    (mergedTracked now e c).description =
      if c.description ≠ "" ∧ e.description.length < c.description.length
      then c.description else e.description := by
  unfold mergedTracked
  rw [sourcesTracked_description, descTracked_description]
  have hsd : (statusTracked now (touchTracked now e c) c).description = e.description := by
    rw [statusTracked_description]; rfl
  rw [hsd]

theorem mergedTracked_sourceSet (now : String) (e : TrackedItem) (c : Candidate) :
    sourceSet (mergedTracked now e c) =
      if c.source ∈ sourceSet e then sourceSet e else sourceSet e ++ [c.source] := by
  unfold mergedTracked
  have hsrc : (descTracked (statusTracked now (touchTracked now e c) c) c).sources
      = e.sources := by
    rw [descTracked_sources, statusTracked_sources]; rfl
  have hsrc2 : (descTracked (statusTracked now (touchTracked now e c) c) c).source
      = e.source := by
    rw [descTracked_source, statusTracked_source]; rfl
  unfold sourcesTracked
  simp only [sourceSet, hsrc, hsrc2, Option.getD_some]

-- ── Merge-step lemmas ──────────────────────────────────────────────────

theorem mergeStep_betas (now : String) (sc : ScanState × Changes) (c : Candidate) :
    (mergeStep now sc c).1.betas = setKey c.id (afterEntry now sc.1 c) sc.1.betas := by
  simp only [mergeStep, afterEntry]
  cases lookupKey c.id sc.1.betas <;> rfl

theorem mergeStep_lookup_self (now : String) (sc : ScanState × Changes) (c : Candidate) :
    lookupKey c.id (mergeStep now sc c).1.betas = some (afterEntry now sc.1 c) := by
  rw [mergeStep_betas, lookupKey_setKey_self]

theorem mergeStep_lookup_ne (now : String) (sc : ScanState × Changes) (c : Candidate)
    {k : String} (h : k ≠ c.id) :
    lookupKey k (mergeStep now sc c).1.betas = lookupKey k sc.1.betas := by
  rw [mergeStep_betas, lookupKey_setKey_ne _ _ h]

theorem mergeStep_changes (now : String) (sc : ScanState × Changes) (c : Candidate) :
    (mergeStep now sc c).2 =
      match lookupKey c.id sc.1.betas with
      | none => { sc.2 with newItems := sc.2.newItems ++ [c] }
      | some e => mergeChanges e c sc.2 := by
  simp only [mergeStep]
  cases lookupKey c.id sc.1.betas <;> rfl

theorem foldl_mergeStep_frame (now : String) (items : List Candidate) :
    ∀ (sc : ScanState × Changes) (k : String), (∀ d ∈ items, d.id ≠ k) →
      lookupKey k ((items.foldl (mergeStep now) sc).1).betas = lookupKey k sc.1.betas := by
  induction items with
  | nil => intro sc k _; rfl
  | cons c rest ih =>
    intro sc k h
    simp only [List.foldl_cons]
    rw [ih _ k (fun d hd => h d (List.mem_cons_of_mem _ hd)),
        mergeStep_lookup_ne now sc c (fun hk => h c (List.mem_cons_self c rest) hk.symm)]

-- ── Stability of a merged entry ────────────────────────────────────────

theorem obs_refl (e : TrackedItem) : Obs e e := ⟨rfl, rfl, rfl, rfl, rfl⟩

theorem obs_trans {e1 e2 e3 : TrackedItem} (h12 : Obs e1 e2) (h23 : Obs e2 e3) :
    Obs e1 e3 := by
  obtain ⟨a1, a2, a3, a4, a5⟩ := h12
  obtain ⟨b1, b2, b3, b4, b5⟩ := h23
  exact ⟨b1.trans a1, b2.trans a2, b3.trans a3, b4.trans a4, b5.trans a5⟩

theorem stable_status_cond {e : TrackedItem} {c : Candidate} (hst : Stable e c) :
    ¬(e.status ≠ c.status ∧ c.status ≠ "update") := by
  rcases hst.1 with h1 | h1
  · exact fun hc => hc.2 h1
  · exact fun hc => hc.1 h1

theorem stable_desc_cond {e : TrackedItem} {c : Candidate} (hst : Stable e c) :
    ¬(c.description ≠ "" ∧ e.description.length < c.description.length) := by
  intro hc
  obtain ⟨_, hlt⟩ := hc
  have := hst.2.1
  omega

theorem mergeChanges_of_stable {e : TrackedItem} {c : Candidate} (hst : Stable e c)
    (ch : Changes) : mergeChanges e c ch = ch := by
  unfold mergeChanges
  rw [if_neg (stable_status_cond hst), if_neg (stable_desc_cond hst)]

theorem obs_mergedTracked_of_stable (now : String) {e : TrackedItem} {c : Candidate}
    (hst : Stable e c) : Obs e (mergedTracked now e c) := by
  obtain ⟨h1, h2, ⟨h, hh, hstab⟩, h4⟩ := hst
  have hhubs : mergeHubs e.hubs c.hubs = h := by
    rw [hh]
    exact hstab
  refine ⟨?_, ?_, ?_, ?_, ?_⟩
  · rw [mergedTracked_statusHistory, if_neg (stable_status_cond ⟨h1, h2, ⟨h, hh, hstab⟩, h4⟩)]
  · rw [mergedTracked_description, if_neg (stable_desc_cond ⟨h1, h2, ⟨h, hh, hstab⟩, h4⟩)]
  · rw [mergedTracked_status, if_neg (stable_status_cond ⟨h1, h2, ⟨h, hh, hstab⟩, h4⟩)]
  · rw [mergedTracked_hubs, hhubs, hh]
  · rw [mergedTracked_sourceSet, if_pos h4]

theorem stable_afterEntry (now : String) (s : ScanState) (c : Candidate)
    (hwf : CandWF c) (hswf : StoreWF s) : Stable (afterEntry now s c) c := by
  unfold afterEntry
  cases hlk : lookupKey c.id s.betas with
  | none =>
    refine ⟨Or.inr rfl, Nat.le_refl _, ⟨c.hubs, rfl, mergeHubList_self hwf.2⟩, ?_⟩
    show c.source ∈ sourceSet (newTracked now c)
    simp [sourceSet, newTracked]
  | some e =>
    refine ⟨?_, ?_, ?_, ?_⟩
    · by_cases hcond : e.status ≠ c.status ∧ c.status ≠ "update"
      · right
        rw [mergedTracked_status, if_pos hcond]
      · rcases Decidable.not_and_iff_or_not.mp hcond with hc | hc
        · right
          rw [mergedTracked_status, if_neg hcond]
          exact (Decidable.not_not.mp hc).symm.symm
        · exact Or.inl (Decidable.not_not.mp hc)
    · rw [mergedTracked_description]
      by_cases hcond : c.description ≠ "" ∧ e.description.length < c.description.length
      · rw [if_pos hcond]
      · rw [if_neg hcond]
        rcases Decidable.not_and_iff_or_not.mp hcond with hc | hc
        · have hce : c.description = "" := Decidable.not_not.mp hc
          rw [hce]
          exact Nat.zero_le _
        · exact Nat.le_of_not_lt hc
    · refine ⟨mergeHubs e.hubs c.hubs, mergedTracked_hubs now e c, ?_⟩
      cases hhe : e.hubs with
      | none =>
        show mergeHubList (mergeHubs none c.hubs) c.hubs = mergeHubs none c.hubs
        simp only [mergeHubs]
        exact mergeHubList_self hwf.2
      | some h0 =>
        show mergeHubList (mergeHubs (some h0) c.hubs) c.hubs = mergeHubs (some h0) c.hubs
        simp only [mergeHubs]
        exact mergeHubList_stable (hswf c.id e hlk h0 hhe)
    · rw [mergedTracked_sourceSet]
      by_cases hcond : c.source ∈ sourceSet e
      · rw [if_pos hcond]
        exact hcond
      · rw [if_neg hcond]
        simp

theorem storeWF_mergeStep (now : String) (sc : ScanState × Changes) (c : Candidate)
    (hwf : CandWF c) (hs : StoreWF sc.1) : StoreWF (mergeStep now sc c).1 := by
  intro k e hlk h hh
  rw [mergeStep_betas] at hlk
  by_cases hk : k = c.id
  · subst hk
    rw [lookupKey_setKey_self] at hlk
    injection hlk with hlk
    subst hlk
    unfold afterEntry at hh
    cases hlk2 : lookupKey c.id sc.1.betas with
    | none =>
      rw [hlk2] at hh
      have hch : some c.hubs = some h := hh
      injection hch with hch
      exact hch ▸ hwf.1
    | some e0 =>
      rw [hlk2] at hh
      rw [mergedTracked_hubs] at hh
      injection hh with hh
      subst hh
      cases hhe0 : e0.hubs with
      | none =>
        simp only [mergeHubs]
        exact hwf.1
      | some h0 =>
        simp only [mergeHubs]
        exact mergeHubList_nodup c.hubs (hs c.id e0 hlk2 h0 hhe0)
  · rw [lookupKey_setKey_ne _ _ hk] at hlk
    exact hs k e hlk h hh

-- ── Run-level lemmas ───────────────────────────────────────────────────

theorem run_establish (now : String) (items : List Candidate) :
    ∀ (sc : ScanState × Changes),
      (items.map Candidate.id).Nodup → (∀ c ∈ items, CandWF c) → StoreWF sc.1 →
      (∀ c ∈ items, ∃ e, lookupKey c.id ((items.foldl (mergeStep now) sc).1).betas = some e ∧
         Stable e c) ∧ StoreWF ((items.foldl (mergeStep now) sc).1) := by
  induction items with
  | nil =>
    intro sc _ _ hswf
    exact ⟨fun c hc => absurd hc (List.not_mem_nil c), hswf⟩
  | cons c rest ih =>
    intro sc hnd hwf hswf
    rw [List.map_cons, List.nodup_cons] at hnd
    obtain ⟨hcid, hndr⟩ := hnd
    simp only [List.foldl_cons]
    have hswf' : StoreWF (mergeStep now sc c).1 :=
      storeWF_mergeStep now sc c (hwf c (List.mem_cons_self c rest)) hswf
    obtain ⟨hstab_rest, hswf_final⟩ :=
      ih (mergeStep now sc c) hndr (fun d hd => hwf d (List.mem_cons_of_mem c hd)) hswf'
    refine ⟨?_, hswf_final⟩
    intro d hd
    rcases List.mem_cons.mp hd with rfl | hd'
    · refine ⟨afterEntry now sc.1 d, ?_,
        stable_afterEntry now sc.1 d (hwf d (List.mem_cons_self d rest)) hswf⟩
      rw [foldl_mergeStep_frame now rest _ d.id ?_, mergeStep_lookup_self]
      intro x hx hxc
      exact hcid (hxc ▸ List.mem_map_of_mem Candidate.id hx)
    · exact hstab_rest d hd'

theorem run_noop (now : String) (items : List Candidate) :
    ∀ (sc : ScanState × Changes),
      (∀ c ∈ items, ∃ e, lookupKey c.id sc.1.betas = some e ∧ Stable e c) →
      (items.map Candidate.id).Nodup →
      ((items.foldl (mergeStep now) sc).2 = sc.2 ∧
       (∀ k, (lookupKey k ((items.foldl (mergeStep now) sc).1).betas).isSome
           = (lookupKey k sc.1.betas).isSome) ∧
       (∀ k e1, lookupKey k sc.1.betas = some e1 →
          ∃ e2, lookupKey k ((items.foldl (mergeStep now) sc).1).betas = some e2 ∧
            Obs e1 e2)) := by
  induction items with
  | nil =>
    intro sc _ _
    exact ⟨rfl, fun _ => rfl, fun _ e1 h => ⟨e1, h, obs_refl e1⟩⟩
  | cons c rest ih =>
    intro sc hst hnd
    rw [List.map_cons, List.nodup_cons] at hnd
    obtain ⟨hcid, hndr⟩ := hnd
    obtain ⟨e, hle, hse⟩ := hst c (List.mem_cons_self c rest)
    have hstep_betas : (mergeStep now sc c).1.betas
        = setKey c.id (mergedTracked now e c) sc.1.betas := by
      rw [mergeStep_betas]
      unfold afterEntry
      rw [hle]
    have hstep_ch : (mergeStep now sc c).2 = sc.2 := by
      rw [mergeStep_changes, hle]
      exact mergeChanges_of_stable hse sc.2
    have hst' : ∀ d ∈ rest, ∃ e', lookupKey d.id (mergeStep now sc c).1.betas = some e' ∧
        Stable e' d := by
      intro d hd
      obtain ⟨ed, hled, hsed⟩ := hst d (List.mem_cons_of_mem c hd)
      refine ⟨ed, ?_, hsed⟩
      rw [hstep_betas, lookupKey_setKey_ne]
      · exact hled
      · intro hdc
        exact hcid (hdc ▸ List.mem_map_of_mem Candidate.id hd)
    obtain ⟨ih1, ih2, ih3⟩ := ih (mergeStep now sc c) hst' hndr
    simp only [List.foldl_cons]
    refine ⟨?_, ?_, ?_⟩
    · rw [ih1, hstep_ch]
    · intro k
      rw [ih2 k, hstep_betas]
      by_cases hk : k = c.id
      · subst hk
        rw [lookupKey_setKey_self, hle]
        rfl
      · rw [lookupKey_setKey_ne _ _ hk]
    · intro k e1 hke1
      by_cases hk : k = c.id
      · subst hk
        rw [hle] at hke1
        injection hke1 with hke1
        rw [← hke1]
        have hlk2 : lookupKey c.id (mergeStep now sc c).1.betas
            = some (mergedTracked now e c) := by
          rw [hstep_betas, lookupKey_setKey_self]
        obtain ⟨e2, he2, hobs2⟩ := ih3 c.id (mergedTracked now e c) hlk2
        exact ⟨e2, he2, obs_trans (obs_mergedTracked_of_stable now hse) hobs2⟩
      · have hlk2 : lookupKey k (mergeStep now sc c).1.betas = some e1 := by
          rw [hstep_betas, lookupKey_setKey_ne _ _ hk]
          exact hke1
        exact ih3 k e1 hlk2

-- ── detectHubs lemmas ──────────────────────────────────────────────────

theorem hubFold_eq {f : String → Bool} (l : List (String × List String)) :
    ∀ acc : List String,
      l.foldl (fun acc p => if p.2.any f then acc ++ [p.1] else acc) acc
        = acc ++ (l.filter (fun p => p.2.any f)).map Prod.fst := by
  induction l with
  | nil => intro acc; simp
  | cons p t ih =>
    intro acc
    simp only [List.foldl_cons, List.filter_cons]
    by_cases hq : p.2.any f = true
    · rw [if_pos hq, if_pos hq, ih, List.map_cons, List.append_assoc, List.singleton_append]
    · rw [if_neg hq, if_neg hq, ih]

theorem detectHubs_eq (text : String) :
    detectHubs text =
      if ((HUB_KEYWORDS.filter
            (fun p => p.2.any (fun kw => includesStr (jsToLower text) kw))).map
          Prod.fst).isEmpty
      then ["Platform"]
      else (HUB_KEYWORDS.filter
            (fun p => p.2.any (fun kw => includesStr (jsToLower text) kw))).map Prod.fst := by
  simp only [detectHubs]
  rw [hubFold_eq HUB_KEYWORDS [], List.nil_append]

theorem detectHubs_keys_sub (text : String) {x : String} (hx : x ∈ detectHubs text) :
    x = "Platform" ∨ x ∈ HUB_KEYWORDS.map Prod.fst := by
  rw [detectHubs_eq] at hx
  split at hx
  · rw [List.mem_singleton] at hx
    exact Or.inl hx
  · refine Or.inr ?_
    exact List.Sublist.subset (List.Sublist.map Prod.fst (List.filter_sublist _)) hx

theorem detectHubs_nodup (text : String) : (detectHubs text).Nodup := by
  rw [detectHubs_eq]
  split
  · exact List.nodup_singleton _
  · refine List.Nodup.sublist (List.Sublist.map Prod.fst (List.filter_sublist _)) ?_
    show (HUB_KEYWORDS.map Prod.fst).Nodup
    decide

theorem platform_not_hub_key : "Platform" ∉ HUB_KEYWORDS.map Prod.fst := by decide

theorem detectHubs_platform (text : String) (h : "Platform" ∈ detectHubs text) :
    detectHubs text = ["Platform"] := by
  rw [detectHubs_eq] at h ⊢
  split at h
  · next hemp => rw [if_pos hemp]
  · next hemp =>
    exact absurd (List.Sublist.subset (List.Sublist.map Prod.fst
      (List.filter_sublist _)) h) platform_not_hub_key

theorem detectHubs_candWF (text : String) :
    (detectHubs text).Nodup ∧
    ("Platform" ∈ detectHubs text → detectHubs text = ["Platform"]) :=
  ⟨detectHubs_nodup text, detectHubs_platform text⟩

theorem hubFold_acc_sub {f : String → Bool} (l : List (String × List String)) :
    ∀ (acc : List String) (x : String), x ∈ acc →
      x ∈ l.foldl (fun acc p => if p.2.any f then acc ++ [p.1] else acc) acc := by
  induction l with
  | nil => intro acc x hx; exact hx
  | cons p t ih =>
    intro acc x hx
    simp only [List.foldl_cons]
    split
    · exact ih _ x (List.mem_append_left _ hx)
    · exact ih _ x hx

theorem mem_hubFold {f : String → Bool} (l : List (String × List String)) :
    ∀ (acc : List String) (hub : String) (kws : List String),
      (hub, kws) ∈ l → kws.any f = true →
      hub ∈ l.foldl (fun acc p => if p.2.any f then acc ++ [p.1] else acc) acc := by
  induction l with
  | nil => intro _ _ _ h _; cases h
  | cons p t ih =>
    intro acc hub kws hmem hany
    simp only [List.foldl_cons]
    rcases List.mem_cons.mp hmem with heq | hmem'
    · have hp2 : p.2.any f = true := by rw [← heq]; exact hany
      rw [if_pos hp2]
      have hp1 : p.1 = hub := by rw [← heq]
      exact hubFold_acc_sub t _ hub (by rw [hp1]; exact List.mem_append_right _ (List.mem_singleton.mpr rfl))
    · split
      · exact ih _ hub kws hmem' hany
      · exact ih _ hub kws hmem' hany

theorem mem_detectHubs {text hub : String} {kws : List String}
    (hmem : (hub, kws) ∈ HUB_KEYWORDS)
    (hany : kws.any (fun kw => includesStr (jsToLower text) kw) = true) :
    hub ∈ detectHubs text := by
  have hh : hub ∈ HUB_KEYWORDS.foldl
      (fun acc p => if p.2.any (fun kw => includesStr (jsToLower text) kw) then acc ++ [p.1]
       else acc) [] :=
    mem_hubFold HUB_KEYWORDS [] hub kws hmem hany
  simp only [detectHubs]
  split
  · next hemp =>
    rw [List.isEmpty_iff] at hemp
    rw [hemp] at hh
    cases hh
  · exact hh

-- ── find? and dedupe lemmas ────────────────────────────────────────────

theorem find?_first {α : Type} (p : α → Bool) (l : List α) (a : α)
    (h : l.find? p = some a) :
    p a = true ∧ ∃ l1 l2, l = l1 ++ a :: l2 ∧ ∀ b ∈ l1, p b = false := by
  rw [List.find?_eq_some] at h
  obtain ⟨hp, l1, l2, heq, hall⟩ := h
  exact ⟨hp, l1, l2, heq, fun b hb => by simpa using hall b hb⟩

theorem dedupeStep_lookup_ne {k : String} (m : List (String × Candidate)) (x : Candidate)
    (h : k ≠ x.id) : lookupKey k (dedupeStep m x) = lookupKey k m := by
  unfold dedupeStep
  cases lookupKey x.id m with
  | none => exact lookupKey_setKey_ne _ _ h
  | some e =>
    show lookupKey k (if e.description.length < x.description.length
      then setKey x.id x m else m) = lookupKey k m
    by_cases hd : e.description.length < x.description.length
    · rw [if_pos hd]
      exact lookupKey_setKey_ne _ _ h
    · rw [if_neg hd]

theorem dedupe_keys_nodup (l : List Candidate) : ((dedupe l).map Prod.fst).Nodup := by
  have hgen : ∀ (m : List (String × Candidate)), (m.map Prod.fst).Nodup →
      ((l.foldl dedupeStep m).map Prod.fst).Nodup := by
    induction l with
    | nil => intro m hm; exact hm
    | cons x t ih =>
      intro m hm
      simp only [List.foldl_cons]
      refine ih _ ?_
      unfold dedupeStep
      cases hlk : lookupKey x.id m with
      | none =>
        rw [map_fst_setKey_not_mem]
        · rw [List.nodup_append]
          refine ⟨hm, List.nodup_singleton _, ?_⟩
          intro z hz hz2
          rw [List.mem_singleton] at hz2
          subst hz2
          exact (lookupKey_eq_none_iff _ _ |>.mp hlk) hz
        · exact (lookupKey_eq_none_iff _ _).mp hlk
      | some e =>
        show (List.map Prod.fst (if e.description.length < x.description.length
          then setKey x.id x m else m)).Nodup
        by_cases hd : e.description.length < x.description.length
        · rw [if_pos hd, map_fst_setKey_mem]
          · exact hm
          · rw [← lookupKey_isSome_iff, hlk]
            rfl
        · rw [if_neg hd]
          exact hm
  exact hgen [] (by simp)

theorem dedupe_append_one (l : List Candidate) (x : Candidate) :
    dedupe (l ++ [x]) = dedupeStep (dedupe l) x := by
  unfold dedupe
  rw [List.foldl_append]
  rfl

/-- Full characterisation of a dedup lookup: the representative of an
identity carries that identity, has maximal description length in its
group, and is the first group member attaining that maximum. -/
theorem dedupe_lookup_spec (l : List Candidate) (k : String) :
    (lookupKey k (dedupe l) = none → ∀ c ∈ l, c.id ≠ k) ∧
    (∀ c, lookupKey k (dedupe l) = some c →
      c.id = k ∧
      (∀ d ∈ l, d.id = k → d.description.length ≤ c.description.length) ∧
      ∃ l1 l2, l = l1 ++ c :: l2 ∧
        ∀ d ∈ l1, d.id = k → d.description.length < c.description.length) := by
  induction l using List.reverseRecOn with
  | nil =>
    constructor
    · intro _ c hc
      cases hc
    · intro c hc
      simp [dedupe, lookupKey] at hc
  | append_singleton l x ih =>
    rw [dedupe_append_one]
    by_cases hx : x.id = k
    · cases hlk : lookupKey x.id (dedupe l) with
      | none =>
        have hstep : dedupeStep (dedupe l) x = setKey x.id x (dedupe l) := by
          unfold dedupeStep
          rw [hlk]
        rw [hstep]
        have hnone : ∀ c ∈ l, c.id ≠ k := by
          intro c hc
          refine ih.1 ?_ c hc
          rw [← hx]
          exact hlk
        constructor
        · intro habs
          rw [← hx, lookupKey_setKey_self] at habs
          exact Option.noConfusion habs
        · intro c hc
          rw [← hx, lookupKey_setKey_self] at hc
          injection hc with hc
          subst hc
          refine ⟨hx, ?_, l, [], by simp, ?_⟩
          · intro d hd hdk
            rcases List.mem_append.mp hd with hd' | hd'
            · exact absurd hdk (hnone d hd')
            · rw [List.mem_singleton] at hd'
              subst hd'
              exact Nat.le_refl _
          · intro d hd hdk
            exact absurd hdk (hnone d hd)
      | some e =>
        have hlk' : lookupKey k (dedupe l) = some e := by
          rw [← hx]
          exact hlk
        obtain ⟨heid, hmax, l1, l2, hdecomp, hstrict⟩ := ih.2 e hlk'
        by_cases hlen : e.description.length < x.description.length
        · have hstep : dedupeStep (dedupe l) x = setKey x.id x (dedupe l) := by
            unfold dedupeStep
            rw [hlk]
            show (if e.description.length < x.description.length
              then setKey x.id x (dedupe l) else dedupe l) = setKey x.id x (dedupe l)
            rw [if_pos hlen]
          rw [hstep]
          constructor
          · intro habs
            rw [← hx, lookupKey_setKey_self] at habs
            exact Option.noConfusion habs
          · intro c hc
            rw [← hx, lookupKey_setKey_self] at hc
            injection hc with hc
            subst hc
            refine ⟨hx, ?_, l, [], by simp, ?_⟩
            · intro d hd hdk
              rcases List.mem_append.mp hd with hd' | hd'
              · exact Nat.le_of_lt (Nat.lt_of_le_of_lt (hmax d hd' hdk) hlen)
              · rw [List.mem_singleton] at hd'
                subst hd'
                exact Nat.le_refl _
            · intro d hd hdk
              exact Nat.lt_of_le_of_lt (hmax d hd hdk) hlen
        · have hstep : dedupeStep (dedupe l) x = dedupe l := by
            unfold dedupeStep
            rw [hlk]
            show (if e.description.length < x.description.length
              then setKey x.id x (dedupe l) else dedupe l) = dedupe l
            rw [if_neg hlen]
          rw [hstep]
          constructor
          · intro habs
            exact Option.noConfusion (hlk'.symm.trans habs)
          · intro c hc
            have hc' : c = e := Option.some.inj (hc.symm.trans hlk')
            subst hc'
            refine ⟨heid, ?_, l1, l2 ++ [x], ?_, hstrict⟩
            · intro d hd hdk
              rcases List.mem_append.mp hd with hd' | hd'
              · exact hmax d hd' hdk
              · rw [List.mem_singleton] at hd'
                subst hd'
                exact Nat.le_of_not_lt hlen
            · rw [hdecomp]
              simp
    · rw [dedupeStep_lookup_ne _ _ (fun hkc => hx hkc.symm)]
      constructor
      · intro hnone c hc
        rcases List.mem_append.mp hc with hc' | hc'
        · exact ih.1 hnone c hc'
        · rw [List.mem_singleton] at hc'
          subst hc'
          exact fun hh => hx hh
      · intro c hc
        obtain ⟨heid, hmax, l1, l2, hdecomp, hstrict⟩ := ih.2 c hc
        refine ⟨heid, ?_, l1, l2 ++ [x], ?_, hstrict⟩
        · intro d hd hdk
          rcases List.mem_append.mp hd with hd' | hd'
          · exact hmax d hd' hdk
          · rw [List.mem_singleton] at hd'
            subst hd'
            exact absurd hdk hx
        · rw [hdecomp]
          simp

-- ── Description monotonicity across a whole merge run ──────────────────

theorem foldl_mergeStep_desc_mono (now : String) (items : List Candidate) :
    ∀ (sc : ScanState × Changes) (k : String) (e1 : TrackedItem),
      lookupKey k sc.1.betas = some e1 →
      ∃ e2, lookupKey k ((items.foldl (mergeStep now) sc).1).betas = some e2 ∧
        e1.description.length ≤ e2.description.length := by
  induction items with
  | nil =>
    intro sc k e1 h
    exact ⟨e1, h, Nat.le_refl _⟩
  | cons c rest ih =>
    intro sc k e1 h
    simp only [List.foldl_cons]
    by_cases hk : k = c.id
    · subst hk
      have hae : afterEntry now sc.1 c = mergedTracked now e1 c := by
        unfold afterEntry
        rw [h]
      have hstep := mergeStep_lookup_self now sc c
      rw [hae] at hstep
      obtain ⟨e2, he2, hle2⟩ := ih (mergeStep now sc c) c.id _ hstep
      refine ⟨e2, he2, Nat.le_trans ?_ hle2⟩
      rw [mergedTracked_description]
      by_cases hcond : c.description ≠ "" ∧ e1.description.length < c.description.length
      · rw [if_pos hcond]
        exact Nat.le_of_lt hcond.2
      · rw [if_neg hcond]
    · have hstep : lookupKey k (mergeStep now sc c).1.betas = some e1 := by
        rw [mergeStep_lookup_ne now sc c hk]
        exact h
      exact ih _ k e1 hstep

-- ── mergeChanges field computations ────────────────────────────────────

theorem mergeChanges_statusChanged (e : TrackedItem) (c : Candidate) (ch : Changes) :
    (mergeChanges e c ch).statusChanged =
      if e.status ≠ c.status ∧ c.status ≠ "update"
      then ch.statusChanged ++ [(c, e.status)] else ch.statusChanged := by
  unfold mergeChanges
  by_cases h1 : e.status ≠ c.status ∧ c.status ≠ "update" <;>
    by_cases h2 : c.description ≠ "" ∧ e.description.length < c.description.length <;>
      simp [h1, h2]

theorem mergeChanges_updated (e : TrackedItem) (c : Candidate) (ch : Changes) :
    (mergeChanges e c ch).updated =
      if c.description ≠ "" ∧ e.description.length < c.description.length
      then ch.updated ++ [c] else ch.updated := by
  unfold mergeChanges
  by_cases h1 : e.status ≠ c.status ∧ c.status ≠ "update" <;>
    by_cases h2 : c.description ≠ "" ∧ e.description.length < c.description.length <;>
      simp [h1, h2]

theorem mergeChanges_newItems (e : TrackedItem) (c : Candidate) (ch : Changes) :
    (mergeChanges e c ch).newItems = ch.newItems := by
  unfold mergeChanges
  by_cases h1 : e.status ≠ c.status ∧ c.status ≠ "update" <;>
    by_cases h2 : c.description ≠ "" ∧ e.description.length < c.description.length <;>
      simp [h1, h2]

theorem mergeResults_two_same_id (now : String) (c1 c2 : Candidate) (h : c2.id = c1.id) :
    ((mergeResults now ⟨[], none, 0⟩ [c1, c2]).1.betas).map Prod.fst = [c1.id] := by
  unfold mergeResults
  simp only [List.foldl_cons, List.foldl_nil]
  have h1 : ((mergeStep now (⟨[], none, 0⟩, emptyChanges) c1).1.betas).map Prod.fst
      = [c1.id] := by
    rw [mergeStep_betas, map_fst_setKey_not_mem]
    · rfl
    · intro hmem
      simp at hmem
  rw [mergeStep_betas, map_fst_setKey_mem]
  · exact h1
  · rw [h1, h]
    exact List.mem_singleton.mpr rfl

-- ── Witness fixtures ───────────────────────────────────────────────────

/-- Example candidate used by the witnesses: a fresh public beta. -/
def cPB : Candidate :=
  { id := "new-sequence-automation-beta", title := "New Sequence Automation Beta",
    description := "Short.", status := "public beta", hubs := ["Sales Hub"],
    source := "community" }

/-- The same identity later reported as gone live by another source. -/
def cNL : Candidate := { cPB with status := "now live", source := "dev-changelog" }

/-- The empty Item Store. -/
def emptyStore : ScanState := ⟨[], none, 0⟩

/-- The store after merging `cPB` into the empty store. -/
def storeAfterPB : ScanState := (mergeResults "t1" emptyStore [cPB]).1

-- ── Claim theorems ─────────────────────────────────────────────────────

/-- C1: merging a candidate against an existing Tracked Item performs a
status transition exactly when the candidate's status differs from the
stored status AND is not the generic fallback `"update"`: the Status
History gains one entry recording the old status, the new status and the
triggering source, the stored status is replaced, and a status-changed
change is emitted; otherwise the stored status, the Status History and
the emitted status-changed list are untouched. -/
theorem claim_status_transition (now : String) (sc : ScanState × Changes)
    (c : Candidate) (e : TrackedItem) (hlk : lookupKey c.id sc.1.betas = some e) :
    ∃ e2, lookupKey c.id (mergeStep now sc c).1.betas = some e2 ∧
      (if e.status ≠ c.status ∧ c.status ≠ "update" then
        e2.status = c.status ∧
        e2.statusHistory = e.statusHistory ++
          [{ status := c.status, date := now, source := c.source,
             previousStatus := some e.status }] ∧
        (mergeStep now sc c).2.statusChanged = sc.2.statusChanged ++ [(c, e.status)]
      else
        e2.status = e.status ∧ e2.statusHistory = e.statusHistory ∧
        (mergeStep now sc c).2.statusChanged = sc.2.statusChanged) := by
  have hae : afterEntry now sc.1 c = mergedTracked now e c := by
    unfold afterEntry
    rw [hlk]
  have hch : (mergeStep now sc c).2 = mergeChanges e c sc.2 := by
    rw [mergeStep_changes, hlk]
  refine ⟨mergedTracked now e c, ?_, ?_⟩
  · rw [mergeStep_lookup_self, hae]
  · by_cases hcond : e.status ≠ c.status ∧ c.status ≠ "update"
    · rw [if_pos hcond]
      refine ⟨?_, ?_, ?_⟩
      · rw [mergedTracked_status, if_pos hcond]
      · rw [mergedTracked_statusHistory, if_pos hcond]
      · rw [hch, mergeChanges_statusChanged, if_pos hcond]
    · rw [if_neg hcond]
      refine ⟨?_, ?_, ?_⟩
      · rw [mergedTracked_status, if_neg hcond]
      · rw [mergedTracked_statusHistory, if_neg hcond]
      · rw [hch, mergeChanges_statusChanged, if_neg hcond]

/-- Witness for C1: merging the "now live" candidate against the store
that tracks the item as "public beta" replaces the status and appends one
history entry with `previousStatus = "public beta"`. -/
theorem claim_status_transition_witness :
    ∃ e2, lookupKey cNL.id (mergeStep "t2" (storeAfterPB, emptyChanges) cNL).1.betas
        = some e2 ∧
      e2.status = "now live" ∧
      e2.statusHistory = [{ status := "public beta", date := "t1", source := "community",
                            previousStatus := none },
                          { status := "now live", date := "t2", source := "dev-changelog",
                            previousStatus := some "public beta" }] ∧
      (mergeStep "t2" (storeAfterPB, emptyChanges) cNL).2.statusChanged
        = [(cNL, "public beta")] := by
  obtain ⟨e2, hlk, hrest⟩ := claim_status_transition "t2" (storeAfterPB, emptyChanges)
    cNL (newTracked "t1" cPB) (by decide)
  rw [if_pos (by decide)] at hrest
  obtain ⟨h1, h2, h3⟩ := hrest
  refine ⟨e2, hlk, ?_, ?_, ?_⟩
  · exact h1
  · rw [h2]
    decide
  · rw [h3]
    decide

/-- C8: the merge step records origin sources: the entry stored for the
candidate's identity always contains the candidate's source in its source
set; a newly created item's source set is exactly the singleton of its
creating source; and on a merge against an existing item the old source
set is preserved (union semantics). -/
theorem claim_source_set (now : String) (sc : ScanState × Changes) (c : Candidate) :
    ∃ e2, lookupKey c.id (mergeStep now sc c).1.betas = some e2 ∧
      c.source ∈ sourceSet e2 ∧
      (lookupKey c.id sc.1.betas = none → sourceSet e2 = [c.source]) ∧
      (∀ e, lookupKey c.id sc.1.betas = some e → ∀ x ∈ sourceSet e, x ∈ sourceSet e2) := by
  refine ⟨afterEntry now sc.1 c, mergeStep_lookup_self now sc c, ?_, ?_, ?_⟩
  · unfold afterEntry
    cases hlk : lookupKey c.id sc.1.betas with
    | none =>
      show c.source ∈ sourceSet (newTracked now c)
      simp [sourceSet, newTracked]
    | some e =>
      show c.source ∈ sourceSet (mergedTracked now e c)
      rw [mergedTracked_sourceSet]
      by_cases hc : c.source ∈ sourceSet e
      · rw [if_pos hc]
        exact hc
      · rw [if_neg hc]
        simp
  · intro hlk
    unfold afterEntry
    rw [hlk]
    simp [sourceSet, newTracked]
  · intro e hlk x hx
    unfold afterEntry
    rw [hlk]
    show x ∈ sourceSet (mergedTracked now e c)
    rw [mergedTracked_sourceSet]
    by_cases hc : c.source ∈ sourceSet e
    · rw [if_pos hc]
      exact hx
    · rw [if_neg hc]
      exact List.mem_append_left _ hx

/-- Witness for C8: the item created from `cPB` carries source set
`["community"]`; merging `cNL` from the dev changelog unions in
`"dev-changelog"`. -/
theorem claim_source_set_witness :
    ∃ e2, lookupKey cNL.id (mergeStep "t2" (storeAfterPB, emptyChanges) cNL).1.betas
        = some e2 ∧
      "dev-changelog" ∈ sourceSet e2 ∧ "community" ∈ sourceSet e2 := by
  obtain ⟨e2, hlk, hmem, _, hsup⟩ := claim_source_set "t2" (storeAfterPB, emptyChanges) cNL
  refine ⟨e2, hlk, hmem, ?_⟩
  refine hsup (newTracked "t1" cPB) (by decide) "community" (by decide)

/-- C2: status detection prefers specific beta statuses over the generic
fallback: any text containing "public beta" resolves to "public beta";
any text containing "private beta" but not "public beta" resolves to
"private beta"; a text containing either specific-beta keyword never
resolves to "update"; the winner is the first label of the fixed
`priorityOrder` whose keyword set matches; and when no keyword of any
status matches, the fallback is "update". -/
theorem claim_status_priority :
    (∀ t, includesStr (jsToLower t) "public beta" = true →
        detectStatus t = "public beta") ∧
    (∀ t, includesStr (jsToLower t) "private beta" = true →
        includesStr (jsToLower t) "public beta" = false →
        detectStatus t = "private beta") ∧
    (∀ t, (includesStr (jsToLower t) "public beta" = true ∨
           includesStr (jsToLower t) "private beta" = true) →
        detectStatus t ≠ "update") ∧
    (∀ t st, detectStatus t = st →
        st = "update" ∨ (statusMatches (jsToLower t) st = true ∧
          ∃ l1 l2, priorityOrder = l1 ++ st :: l2 ∧
            ∀ st2 ∈ l1, statusMatches (jsToLower t) st2 = false)) ∧
    (∀ t, (∀ p ∈ STATUS_KEYWORDS, ∀ kw ∈ p.2, includesStr (jsToLower t) kw = false) →
        detectStatus t = "update") := by
  have hlkPB : lookupKey "public beta" STATUS_KEYWORDS = some ["public beta"] := by decide
  have hlkPR : lookupKey "private beta" STATUS_KEYWORDS = some ["private beta"] := by decide
  have hmPB : ∀ t, statusMatches (jsToLower t) "public beta"
      = includesStr (jsToLower t) "public beta" := by
    intro t
    unfold statusMatches
    rw [hlkPB]
    simp
  have hmPR : ∀ t, statusMatches (jsToLower t) "private beta"
      = includesStr (jsToLower t) "private beta" := by
    intro t
    unfold statusMatches
    rw [hlkPR]
    simp
  have hfirst : ∀ t, includesStr (jsToLower t) "public beta" = true →
      detectStatus t = "public beta" := by
    intro t h
    simp only [detectStatus, priorityOrder]
    rw [List.find?_cons_of_pos _ (by rw [hmPB t]; exact h)]
  have hsecond : ∀ t, includesStr (jsToLower t) "private beta" = true →
      includesStr (jsToLower t) "public beta" = false →
      detectStatus t = "private beta" := by
    intro t h1 h2
    simp only [detectStatus, priorityOrder]
    rw [List.find?_cons_of_neg _ (by rw [hmPB t, h2]; exact Bool.false_ne_true)]
    rw [List.find?_cons_of_pos _ (by rw [hmPR t]; exact h1)]
  refine ⟨hfirst, hsecond, ?_, ?_, ?_⟩
  · intro t hor
    by_cases hpb : includesStr (jsToLower t) "public beta" = true
    · rw [hfirst t hpb]
      decide
    · rcases hor with h | h
      · exact absurd h hpb
      · rw [hsecond t h (Bool.not_eq_true _ ▸ hpb)]
        decide
  · intro t st h
    simp only [detectStatus] at h
    cases hfind : priorityOrder.find? (fun status => statusMatches (jsToLower t) status) with
    | none =>
      rw [hfind] at h
      exact Or.inl h.symm
    | some s0 =>
      rw [hfind] at h
      have hs0 : s0 = st := h
      subst hs0
      obtain ⟨hp, l1, l2, heq, hall⟩ := find?_first _ _ _ hfind
      exact Or.inr ⟨hp, l1, l2, heq, hall⟩
  · intro t hnone
    have hsm : ∀ st, statusMatches (jsToLower t) st = false := by
      intro st
      unfold statusMatches
      cases hlk : lookupKey st STATUS_KEYWORDS with
      | none => rfl
      | some kws =>
        rw [List.any_eq_false]
        intro kw hkw
        rw [hnone (st, kws) (lookupKey_mem hlk) kw hkw]
        exact Bool.false_ne_true
    have hf : priorityOrder.find? (fun status => statusMatches (jsToLower t) status)
        = none := by
      rw [List.find?_eq_none]
      intro a _
      rw [hsm a]
      exact Bool.false_ne_true
    simp only [detectStatus]
    rw [hf]

/-- Witness for C2: a text containing both "public beta" and several
generic update keywords resolves to "public beta", and a keyword-free
text falls back to "update". -/
theorem claim_status_priority_witness :
    detectStatus "Public Beta improvements added, update inside" = "public beta" ∧
    detectStatus "zzz qqq" = "update" := by
  constructor
  · exact claim_status_priority.1 "Public Beta improvements added, update inside" (by decide)
  · exact claim_status_priority.2.2.2.2 "zzz qqq" (by decide)

/-- C3: running the Merge Engine a second time with the same deduplicated
candidate list (pairwise-distinct identities, pipeline-well-formed hub
lists) against the store produced by the first run is a no-op: the second
run emits an empty change set, the store's key set is unchanged, and
every item keeps its Status History, description, status, hub set and
source set (only `lastSeen` may move). -/
theorem claim_rerun_noop (now1 now2 : String) (s0 : ScanState) (items : List Candidate)
    (hids : (items.map Candidate.id).Nodup)
    (hwf : ∀ c ∈ items, CandWF c)
    (hs0 : StoreWF s0) :
    (mergeResults now2 (mergeResults now1 s0 items).1 items).2 = emptyChanges ∧
    (∀ k, (lookupKey k (mergeResults now2 (mergeResults now1 s0 items).1 items).1.betas).isSome
        = (lookupKey k (mergeResults now1 s0 items).1.betas).isSome) ∧
    (∀ k e1 e2, lookupKey k (mergeResults now1 s0 items).1.betas = some e1 →
       lookupKey k (mergeResults now2 (mergeResults now1 s0 items).1 items).1.betas = some e2 →
       e2.statusHistory = e1.statusHistory ∧ e2.description = e1.description ∧
       e2.status = e1.status ∧ e2.hubs = e1.hubs ∧ sourceSet e2 = sourceSet e1) := by
  have hrun1 := run_establish now1 items (s0, emptyChanges) hids hwf hs0
  have hstab : ∀ c ∈ items, ∃ e,
      lookupKey c.id ((mergeResults now1 s0 items).1).betas = some e ∧ Stable e c := by
    intro c hc
    exact hrun1.1 c hc
  have hrun2 := run_noop now2 items ((mergeResults now1 s0 items).1, emptyChanges) hstab hids
  refine ⟨hrun2.1, hrun2.2.1, ?_⟩
  intro k e1 e2 h1 h2
  obtain ⟨e2', he2', hobs⟩ := hrun2.2.2 k e1 h1
  have he22 : e2 = e2' := Option.some.inj (h2.symm.trans he2')
  subst he22
  exact hobs

/-- Witness for C3: re-merging the singleton list `[cPB]` against the
store it produced changes no observable field and emits no changes. -/
theorem claim_rerun_noop_witness :
    (mergeResults "t2" (mergeResults "t1" emptyStore [cPB]).1 [cPB]).2 = emptyChanges ∧
    (∀ k e1 e2, lookupKey k (mergeResults "t1" emptyStore [cPB]).1.betas = some e1 →
       lookupKey k (mergeResults "t2" (mergeResults "t1" emptyStore [cPB]).1 [cPB]).1.betas
         = some e2 →
       e2.statusHistory = e1.statusHistory ∧ e2.description = e1.description ∧
       e2.status = e1.status ∧ e2.hubs = e1.hubs ∧ sourceSet e2 = sourceSet e1) := by
  have h := claim_rerun_noop "t1" "t2" emptyStore [cPB] (by decide)
    (by
      intro c hc
      rw [List.mem_singleton] at hc
      subst hc
      exact ⟨by decide, by decide⟩)
    (by
      intro k e hlk h hh
      simp [emptyStore, lookupKey] at hlk)
  exact ⟨h.1, h.2.2⟩

/-- C4: hub merging on an existing item only grows the category set apart
from removal of the `"Platform"` placeholder: the merge step stores
exactly `mergeHubs`; every previously stored hub survives unless it is
the placeholder; every real hub of either side is in the result; the
placeholder is dropped as soon as a real hub stands next to it; and once
a real hub is stored the placeholder can never (re)appear — in particular
not when a later candidate detected zero categories and carries only
`detectHubs`' placeholder output. -/
theorem claim_category_monotone :
    (∀ (now : String) (e : TrackedItem) (c : Candidate),
        (mergedTracked now e c).hubs = some (mergeHubs e.hubs c.hubs)) ∧
    (∀ hs c : List String, ∀ x ∈ hs, x ∈ mergeHubList hs c ∨ x = "Platform") ∧
    (∀ hs c : List String, ∀ x, (x ∈ hs ∨ x ∈ c) → x ≠ "Platform" →
        x ∈ mergeHubList hs c) ∧
    (∀ hs c : List String, "Platform" ∈ hs → (∃ r ∈ c, r ≠ "Platform") →
        "Platform" ∉ mergeHubList hs c) ∧
    (∀ hs c : List String, (∃ r ∈ hs, r ≠ "Platform") →
        "Platform" ∉ mergeHubList hs c) ∧
    (∀ (hs : List String) (t : String), (∃ r ∈ hs, r ≠ "Platform") →
        "Platform" ∉ mergeHubList hs (detectHubs t)) := by
  have hnot : ∀ hs c : List String, (∃ r, (r ∈ hs ∨ r ∈ c) ∧ r ≠ "Platform") →
      "Platform" ∉ mergeHubList hs c := by
    intro hs c hr hmem
    by_cases hp : "Platform" ∈ hs ∨ "Platform" ∈ c
    · exact platform_not_mem_mergeHubList hr hp hmem
    · rcases mem_of_mem_mergeHubList hmem with h | h
      · exact hp (Or.inl h)
      · exact hp (Or.inr h)
  refine ⟨mergedTracked_hubs, ?_, ?_, ?_, ?_, ?_⟩
  · intro hs c x hx
    exact mergeHubList_superset_except hx
  · intro hs c x hx hne
    exact mem_mergeHubList_of_ne hx hne
  · intro hs c hp hr
    obtain ⟨r, hrc, hrne⟩ := hr
    exact hnot hs c ⟨r, Or.inr hrc, hrne⟩
  · intro hs c hr
    obtain ⟨r, hrh, hrne⟩ := hr
    exact hnot hs c ⟨r, Or.inl hrh, hrne⟩
  · intro hs t hr
    obtain ⟨r, hrh, hrne⟩ := hr
    exact hnot hs (detectHubs t) ⟨r, Or.inl hrh, hrne⟩

/-- Witness for C4: merging a placeholder-only candidate hub list into a
stored set containing the real hub "Sales Hub" leaves the placeholder
out, and merging "Sales Hub" into a placeholder-only set drops the
placeholder. -/
theorem claim_category_monotone_witness :
    "Platform" ∉ mergeHubList ["Sales Hub"] (detectHubs "zzz qqq") ∧
    "Platform" ∉ mergeHubList ["Platform"] ["Sales Hub"] ∧
    "Sales Hub" ∈ mergeHubList ["Platform"] ["Sales Hub"] := by
  refine ⟨?_, ?_, ?_⟩
  · exact claim_category_monotone.2.2.2.2.2 ["Sales Hub"] "zzz qqq"
      ⟨"Sales Hub", by decide, by decide⟩
  · exact claim_category_monotone.2.2.2.1 ["Platform"] ["Sales Hub"] (by decide)
      ⟨"Sales Hub", by decide, by decide⟩
  · exact claim_category_monotone.2.2.1 ["Platform"] ["Sales Hub"] "Sales Hub"
      (Or.inr (by decide)) (by decide)

/-- C5: the stored description is replaced exactly when the candidate's
description is strictly longer (and an "updated" change is emitted
exactly then), so the stored description's length never decreases, both
across one merge step and across a whole merge run. -/
theorem claim_description_monotone :
    (∀ (now : String) (e : TrackedItem) (c : Candidate),
        (mergedTracked now e c).description =
          if e.description.length < c.description.length then c.description
          else e.description) ∧
    (∀ (e : TrackedItem) (c : Candidate) (ch : Changes),
        (mergeChanges e c ch).updated =
          if e.description.length < c.description.length then ch.updated ++ [c]
          else ch.updated) ∧
    (∀ (now : String) (e : TrackedItem) (c : Candidate),
        e.description.length ≤ (mergedTracked now e c).description.length) ∧
    (∀ (now : String) (s : ScanState) (items : List Candidate) (k : String)
        (e1 : TrackedItem), lookupKey k s.betas = some e1 →
        ∃ e2, lookupKey k (mergeResults now s items).1.betas = some e2 ∧
          e1.description.length ≤ e2.description.length) := by
  have hcond_iff : ∀ (e : TrackedItem) (c : Candidate),
      (c.description ≠ "" ∧ e.description.length < c.description.length) ↔
        e.description.length < c.description.length := by
    intro e c
    constructor
    · exact And.right
    · intro h
      refine ⟨?_, h⟩
      intro hempty
      rw [hempty] at h
      have hz : ("" : String).length = 0 := rfl
      rw [hz] at h
      exact absurd h (Nat.not_lt_zero _)
  refine ⟨?_, ?_, ?_, ?_⟩
  · intro now e c
    rw [mergedTracked_description]
    by_cases h : e.description.length < c.description.length
    · rw [if_pos ((hcond_iff e c).mpr h), if_pos h]
    · rw [if_neg (fun hc => h ((hcond_iff e c).mp hc)), if_neg h]
  · intro e c ch
    rw [mergeChanges_updated]
    by_cases h : e.description.length < c.description.length
    · rw [if_pos ((hcond_iff e c).mpr h), if_pos h]
    · rw [if_neg (fun hc => h ((hcond_iff e c).mp hc)), if_neg h]
  · intro now e c
    rw [mergedTracked_description]
    by_cases h : c.description ≠ "" ∧ e.description.length < c.description.length
    · rw [if_pos h]
      exact Nat.le_of_lt h.2
    · rw [if_neg h]
  · intro now s items k e1 h
    exact foldl_mergeStep_desc_mono now items (s, emptyChanges) k e1 h

/-- Witness for C5: the stored one-entry description of the `cPB` item is
at most as long after any rerun, and a concrete merge step replaces
"Short." by a strictly longer description. -/
theorem claim_description_monotone_witness :
    (mergedTracked "t2" (newTracked "t1" cPB)
        { cPB with description := "A longer description." }).description
      = "A longer description." ∧
    (mergedTracked "t2" (newTracked "t1" cPB)
        { cPB with description := "abc" }).description = "Short." := by
  constructor
  · rw [claim_description_monotone.1 "t2" (newTracked "t1" cPB)
      { cPB with description := "A longer description." }]
    decide
  · rw [claim_description_monotone.1 "t2" (newTracked "t1" cPB)
      { cPB with description := "abc" }]
    decide

/-- C6: the Deduplicator emits exactly one Candidate Record per distinct
identity key of the scan batch: the dedup map's keys are duplicate-free,
an identity has a representative iff some candidate carries it, and the
representative is a group member of maximal description length — namely
the first group member attaining that maximum (so selection is a
deterministic function of the input list). -/
theorem claim_dedupe_representative (l : List Candidate) (k : String) :
    ((dedupe l).map Prod.fst).Nodup ∧
    ((lookupKey k (dedupe l)).isSome = true ↔ ∃ c ∈ l, c.id = k) ∧
    (∀ c, lookupKey k (dedupe l) = some c →
      c.id = k ∧ c ∈ l ∧
      (∀ d ∈ l, d.id = k → d.description.length ≤ c.description.length) ∧
      ∃ l1 l2, l = l1 ++ c :: l2 ∧
        ∀ d ∈ l1, d.id = k → d.description.length < c.description.length) := by
  obtain ⟨hnone, hsome⟩ := dedupe_lookup_spec l k
  refine ⟨dedupe_keys_nodup l, ?_, ?_⟩
  · constructor
    · intro hs
      cases hlk : lookupKey k (dedupe l) with
      | none =>
        rw [hlk] at hs
        simp at hs
      | some c =>
        obtain ⟨hid, _, l1, l2, hdec, _⟩ := hsome c hlk
        refine ⟨c, ?_, hid⟩
        rw [hdec]
        exact List.mem_append_right _ (List.mem_cons_self _ _)
    · rintro ⟨c, hc, hck⟩
      cases hlk : lookupKey k (dedupe l) with
      | none => exact absurd hck (hnone hlk c hc)
      | some e => rfl
  · intro c hlk
    obtain ⟨hid, hmax, l1, l2, hdec, hstr⟩ := hsome c hlk
    refine ⟨hid, ?_, hmax, l1, l2, hdec, hstr⟩
    rw [hdec]
    exact List.mem_append_right _ (List.mem_cons_self _ _)

/-- Candidate with a 40-character description (dedup witness). -/
def dShort : Candidate := { cPB with description := String.mk (List.replicate 40 'x') }

/-- Candidate with a 120-character description (dedup witness). -/
def dLong : Candidate := { cPB with description := String.mk (List.replicate 120 'y') }

set_option maxRecDepth 10000 in
/-- Witness for C6: of two same-identity candidates with descriptions of
length 40 and 120, deduplication selects the length-120 one, and its
description length is maximal in the group. -/
theorem claim_dedupe_representative_witness :
    lookupKey cPB.id (dedupe [dShort, dLong]) = some dLong ∧
    ∀ d ∈ [dShort, dLong], d.id = cPB.id →
      d.description.length ≤ dLong.description.length := by
  have hlk : lookupKey cPB.id (dedupe [dShort, dLong]) = some dLong := by decide
  exact ⟨hlk, ((claim_dedupe_representative [dShort, dLong] cPB.id).2.2 dLong hlk).2.2.1⟩

/-- C7: the Title Filter rejects every title matching a Noise, Rollup or
Informational pattern: such titles yield no Candidate Record in the dev
changelog parser, the decision reads only the title (never the
description), the releasebot standalone gate rejects them as well, and a
post that was expanded into sub-items never also emits its own title. -/
theorem claim_title_filter :
    (∀ title desc, (isNoise title = true ∨ isRollupPost title = true ∨
        isInformationalPost title = true) →
        devChangelogAccepts title desc = false) ∧
    (∀ title d1 d2, devChangelogAccepts title d1 = devChangelogAccepts title d2) ∧
    (∀ title ex, (isNoise title = true ∨ isRollupPost title = true ∨
        isInformationalPost title = true) →
        releasebotEmitsStandalone ex title = false) ∧
    (∀ title, releasebotEmitsStandalone true title = false) := by
  have hvn : ∀ title, isNoise title = true → isValidTitle title = false := by
    intro t h
    unfold isValidTitle
    by_cases h0 : t = "" ∨ t.length < 15 ∨ 200 < t.length
    · rw [if_pos h0]
    · rw [if_neg h0, if_pos h]
  have hacc : ∀ title desc, (isNoise title = true ∨ isRollupPost title = true ∨
      isInformationalPost title = true) → devChangelogAccepts title desc = false := by
    intro t d hor
    unfold devChangelogAccepts
    rcases hor with h | h | h
    · rw [hvn t h]
      rfl
    · rw [h]
      simp
    · rw [h]
      simp
  refine ⟨hacc, fun _ _ _ => rfl, ?_, ?_⟩
  · intro t ex hor
    unfold releasebotEmitsStandalone
    rcases hor with h | h | h
    · rw [hvn t h]
      simp
    · rw [h]
      simp
    · rw [h]
      simp
  · intro t
    rfl

/-- Witness for C7: a noise title is rejected whatever the description,
and an unexpanded rollup title emits no standalone record. -/
theorem claim_title_filter_witness :
    devChangelogAccepts "Questions or comments? Let us know" "A Perfectly Fine Description" = false ∧
    releasebotEmitsStandalone false "September Product Updates" = false := by
  constructor
  · exact claim_title_filter.1 _ _ (Or.inl (by decide))
  · exact claim_title_filter.2.2.1 _ false (Or.inr (Or.inl (by decide)))

/-- C9: identity keys are the normalised title truncated to 80
characters: two titles whose normalised forms agree on the first 80
characters receive the same identity key (always of length at most 80),
and two candidates carrying those keys merge into a single Tracked Item. -/
theorem claim_slug_identity (t1 t2 : String)
    (h : (normalizeTitle t1).take 80 = (normalizeTitle t2).take 80) :
    slugify t1 = slugify t2 ∧
    (slugify t1).length ≤ 80 ∧
    (∀ (now : String) (c1 c2 : Candidate), c1.id = slugify t1 → c2.id = slugify t2 →
      ((mergeResults now ⟨[], none, 0⟩ [c1, c2]).1.betas).map Prod.fst = [c1.id]) := by
  have heq : slugify t1 = slugify t2 := by
    unfold slugify
    rw [h]
  refine ⟨heq, ?_, ?_⟩
  · show ((normalizeTitle t1).take 80).length ≤ 80
    exact List.length_take_le _ _
  · intro now c1 c2 hc1 hc2
    apply mergeResults_two_same_id
    rw [hc1, hc2, heq]

/-- Witness for C9: two 86-character titles differing only in their final
character share their first 80 normalised characters and hence their
identity key. -/
theorem claim_slug_identity_witness :
    slugify (String.mk (List.replicate 85 'a' ++ ['x']))
      = slugify (String.mk (List.replicate 85 'a' ++ ['y'])) ∧
    (slugify (String.mk (List.replicate 85 'a' ++ ['x']))).length ≤ 80 := by
  have h := claim_slug_identity (String.mk (List.replicate 85 'a' ++ ['x']))
    (String.mk (List.replicate 85 'a' ++ ['y'])) (by decide)
  exact ⟨h.1, h.2.1⟩

/-- C10: category keyword matching is raw substring inclusion on the
lowercased text, not word-boundary matching: any text whose lowercase
form contains "ai" — in particular any text containing "email" or
"available" — is tagged with the "Breeze AI" hub. -/
theorem claim_ai_substring (t : String) :
    (includesStr (jsToLower t) "ai" = true → "Breeze AI" ∈ detectHubs t) ∧
    (includesStr (jsToLower t) "email" = true → "Breeze AI" ∈ detectHubs t) ∧
    (includesStr (jsToLower t) "available" = true → "Breeze AI" ∈ detectHubs t) := by
  have hbr : ("Breeze AI", ["breeze", "ai", "copilot", "assistant", "agent", "intelligence"])
      ∈ HUB_KEYWORDS := by decide
  have hai : includesStr (jsToLower t) "ai" = true → "Breeze AI" ∈ detectHubs t := by
    intro h
    refine mem_detectHubs hbr ?_
    rw [List.any_eq_true]
    exact ⟨"ai", by decide, h⟩
  refine ⟨hai, ?_, ?_⟩
  · intro h
    exact hai (includesStr_trans (by decide) h)
  · intro h
    exact hai (includesStr_trans (by decide) h)

/-- Witness for C10: a text whose only connection to AI is the word
"Email" is still tagged "Breeze AI". -/
theorem claim_ai_substring_witness :
    "Breeze AI" ∈ detectHubs "Email deliverability improvements" := by
  exact (claim_ai_substring "Email deliverability improvements").2.1 (by decide)

end BetaTracker
